import Mathlib

/-!
Verification of the subtitle segmentation and timing engine
(`app/services/caption.py`): the punctuation classifier, the word-level
English segmenter, the sentence-level international segmenter with
proportional re-timing, and the shared overlap-correction post-pass.

Python strings are modelled as `List Char` (length, append and indexing
agree with Python's), timestamps as rationals, and the one fallible code
path (Python's `range(0, n, 0)` raising `ValueError` when `lines = 0`)
as `Except`.  The Unicode general-category test `category(ch).startswith(P)`
is kept abstract as a parameter `catP : Char → Bool`; every theorem holds
for an arbitrary table, and the concrete sets the source writes out
(ASCII punctuation, the supplementary CJK punctuation string, Python's
whitespace set) are embedded by code point.
-/

/-- One input caption token: `{"text": ..., "start_ts": ..., "end_ts": ...}`. -/
structure Token where
  text : List Char
  start_ts : ℚ
  end_ts : ℚ
deriving DecidableEq, Repr

instance : Inhabited Token := ⟨⟨[], 0, 0⟩⟩

/-- One output display segment: a list of text lines plus a time span. -/
structure Segment where
  text : List (List Char)
  start_ts : ℚ
  end_ts : ℚ
deriving DecidableEq, Repr

instance : Inhabited Segment := ⟨⟨[], 0, 0⟩⟩

/-- The space character, used as the word separator. -/
def spaceChar : Char := Char.ofNat 32

/-- Python's `str.isspace` character set (per code point). -/
def pyIsSpace (c : Char) : Bool :=
  let n := c.toNat
  (9 ≤ n && n ≤ 13) || (28 ≤ n && n ≤ 32) || n == 133 || n == 160 ||
    n == 5760 || (8192 ≤ n && n ≤ 8202) || n == 8232 || n == 8233 ||
    n == 8239 || n == 8287 || n == 12288

/-- Membership in Python's `string.punctuation` (the 32 ASCII punctuation
characters, code points 33-47, 58-64, 91-96 and 123-126). -/
def asciiPunct (c : Char) : Bool :=
  let n := c.toNat
  (33 ≤ n && n ≤ 47) || (58 ≤ n && n ≤ 64) || (91 ≤ n && n ≤ 96) ||
    (123 ≤ n && n ≤ 126)

/-- The supplementary CJK full-width punctuation set `extra_cjk` of
`Caption.is_punctuation`, by code point (55 distinct characters). -/
def extraCJK (c : Char) : Bool :=
  c.toNat ∈ [0xb7, 0x2014, 0x2018, 0x2019, 0x201c, 0x201d, 0x2025, 0x2026,
    0x3001, 0x3002, 0x300a, 0x300b, 0x300c, 0x300d, 0x300e, 0x300f,
    0x3010, 0x3011, 0x3014, 0x3015, 0xfe30, 0xfe31, 0xfe33, 0xfe34,
    0xfe35, 0xfe36, 0xfe37, 0xfe38, 0xfe39, 0xfe3a, 0xfe3b, 0xfe3c,
    0xfe3d, 0xfe3e, 0xfe3f, 0xfe40, 0xfe41, 0xfe42, 0xfe43, 0xfe44,
    0xff01, 0xff03, 0xff04, 0xff05, 0xff08, 0xff09, 0xff0a, 0xff0c,
    0xff0d, 0xff1a, 0xff1b, 0xff1f, 0xff20, 0xff5e, 0xffe5]

/-- The character loop of `Caption.is_punctuation`: walk the characters in
order, returning `false` at the first whitespace character or the first
character that is in none of the three punctuation classes. -/
def puncLoop (catP : Char → Bool) : List Char → Bool
  | [] => true
  | ch :: rest =>
    if pyIsSpace ch then false
    else if catP ch || asciiPunct ch || extraCJK ch then puncLoop catP rest
    else false

/-- `Caption.is_punctuation`: empty text is not punctuation, otherwise run
the per-character loop. -/
def is_punctuation (catP : Char → Bool) (text : List Char) : Bool :=
  if text = [] then false else puncLoop catP text

/-- The overlap-correction post-pass shared by both segmenters:
`for i in range(len(segments) - 1): if segments[i].end_ts >= segments[i+1].start_ts:
segments[i].end_ts = segments[i+1].start_ts - 0.05`.  The Python loop only
ever writes `end_ts` of index `i` at iteration `i` and only ever reads
`start_ts` of index `i+1` (never written), so the in-place loop equals this
one-pass recursion on the original list. -/
def fixOverlaps : List Segment → List Segment
  | [] => []
  | [s] => [s]
  | s :: t :: rest =>
    (if t.start_ts ≤ s.end_ts then { s with end_ts := t.start_ts - 1/20 } else s)
      :: fixOverlaps (t :: rest)

/-! ## The word-level English segmenter -/

/-- State of the loop of `create_subtitle_segments_english`. -/
structure EState where
  segments : List Segment
  texts : List (List Char)
  current_line : Nat
  seg_start : ℚ
  seg_end : ℚ
deriving DecidableEq, Repr

/-- The line-cursor advance of `create_subtitle_segments_english`:
`if current_line < lines and len(current_segment_texts[current_line] + text) > max_length:
current_line += 1`. -/
def advanceCursor (ml lines : Int) (texts : List (List Char)) (cl : Nat)
    (text : List Char) : Nat :=
  if (cl : Int) < lines ∧ ml < ((texts.getD cl []).length + text.length : Int)
  then cl + 1 else cl

/-- `current_segment_texts[current_line] += extra`. -/
def appendAt (texts : List (List Char)) (cl : Nat) (extra : List Char) :
    List (List Char) :=
  texts.set cl ((texts.getD cl []) ++ extra)

/-- The guarded word append of `create_subtitle_segments_english`: when the
cursor is in range, append the token to the cursor's line, preceded by a
space when that line already has content. -/
def appendWord (lines : Int) (texts : List (List Char)) (cl : Nat)
    (t : List Char) : List (List Char) :=
  if (cl : Int) < lines then
    appendAt texts cl ((if texts.getD cl [] = [] then [] else [spaceChar]) ++ t)
  else texts

/-- One iteration of the loop of `create_subtitle_segments_english`:
update `segment_end_ts`, merge punctuation into the cursor's line, otherwise
advance the cursor if the line would overflow, flush a full segment
(emitting the lines accumulated so far with the pending start and the
current token's end, and restarting at `start_ts + 0.05`), and append the
token. -/
def englishStep (catP : Char → Bool) (ml lines : Int) (st : EState)
    (c : Token) : EState :=
  if is_punctuation catP c.text then
    if (st.current_line : Int) < lines ∧ st.texts.getD st.current_line [] ≠ [] then
      { st with seg_end := c.end_ts,
                texts := appendAt st.texts st.current_line c.text }
    else { st with seg_end := c.end_ts }
  else
    let cl := advanceCursor ml lines st.texts st.current_line c.text
    if lines ≤ (cl : Int) then
      { segments := st.segments ++ [⟨st.texts, st.seg_start, c.end_ts⟩],
        texts := appendWord lines (List.replicate lines.toNat []) 0 c.text,
        current_line := 0,
        seg_start := c.start_ts + 1/20,
        seg_end := c.end_ts }
    else
      { st with seg_end := c.end_ts,
                current_line := cl,
                texts := appendWord lines st.texts cl c.text }

/-- `create_subtitle_segments_english` up to (but not including) the
overlap-correction post-pass: fold the step over the tokens starting from
empty accumulators seeded with the first token's timestamps, then emit a
final segment when any accumulator line is non-empty. -/
def englishRaw (catP : Char → Bool) (captions : List Token)
    (ml lines : Int) : List Segment :=
  match captions with
  | [] => []
  | c0 :: _ =>
    let fin := captions.foldl (englishStep catP ml lines)
      ⟨[], List.replicate lines.toNat [], 0, c0.start_ts, c0.end_ts⟩
    if fin.texts.any (fun l => l ≠ []) then
      fin.segments ++ [⟨fin.texts, fin.seg_start, fin.seg_end⟩]
    else fin.segments

/-- `Caption.create_subtitle_segments_english`. -/
def create_subtitle_segments_english (catP : Char → Bool)
    (captions : List Token) (ml lines : Int) : List Segment :=
  fixOverlaps (englishRaw catP captions ml lines)

/-! ## The sentence-level international segmenter -/

/-- `"一" <= char <= "鿿"`. -/
def isCJKChar (c : Char) : Bool :=
  0x4e00 ≤ c.toNat && c.toNat ≤ 0x9fff

/-- Python `str.strip()`: drop leading and trailing whitespace. -/
def pyStrip (l : List Char) : List Char :=
  ((l.dropWhile pyIsSpace).reverse.dropWhile pyIsSpace).reverse

/-- Accumulator form of Python `str.split()`: maximal runs of
non-whitespace characters, in order. -/
def pySplitAux (acc : List Char) : List Char → List (List Char)
  | [] => if acc = [] then [] else [acc.reverse]
  | c :: cs =>
    if pyIsSpace c then
      if acc = [] then pySplitAux [] cs else acc.reverse :: pySplitAux [] cs
    else pySplitAux (c :: acc) cs

/-- Python `str.split()` (no separator argument). -/
def pySplit (l : List Char) : List (List Char) := pySplitAux [] l

/-- The CJK character-by-character part builder of
`create_subtitle_segments_international`: grow `current_part` one character
at a time, emitting it whenever one more character would pass `max_length`,
and emit the non-empty remainder at the end. -/
def cjkSplitAux (ml : Int) (cur : List Char) : List Char → List (List Char)
  | [] => if cur = [] then [] else [cur]
  | ch :: rest =>
    if ml < (cur.length + 1 : Int) then cur :: cjkSplitAux ml [ch] rest
    else cjkSplitAux ml (cur ++ [ch]) rest

/-- The word-based part builder of `create_subtitle_segments_international`:
grow `current_part` word by word (space separated), emitting
`current_part.strip()` whenever the part is non-empty and one more word
(plus its separating space) would pass `max_length`. -/
def wordSplitAux (ml : Int) (cur : List Char) : List (List Char) → List (List Char)
  | [] => if cur = [] then [] else [pyStrip cur]
  | w :: ws =>
    if ml < (cur.length + 1 + w.length : Int) ∧ cur ≠ [] then
      pyStrip cur :: wordSplitAux ml w ws
    else wordSplitAux ml ((if cur = [] then [] else cur ++ [spaceChar]) ++ w) ws

/-- The per-token `parts` list of `create_subtitle_segments_international`:
character-based for text containing a CJK ideograph, word-based otherwise,
computed on the stripped text. -/
def intlParts (ml : Int) (c : Token) : List (List Char) :=
  let text := pyStrip c.text
  if text.any isCJKChar then cjkSplitAux ml [] text
  else wordSplitAux ml [] (pySplit text)

/-- Fuel-driven worker for `groupsOf`; structural recursion on the fuel so
that the definition reduces in the kernel.  The fuel is always at least the
list length at every call. -/
def groupsOfAux (n : Nat) : Nat → List α → List (List α)
  | _, [] => []
  | 0, _ :: _ => []
  | fuel + 1, x :: xs => (x :: xs.take n) :: groupsOfAux n fuel (xs.drop n)

/-- Split a list into consecutive groups of `n + 1` elements (the last group
may be shorter); `parts[i : i + lines]` for `i in range(0, len(parts), lines)`
with `lines = n + 1`. -/
def groupsOf (n : Nat) (l : List α) : List (List α) :=
  groupsOfAux n l.length l

lemma groupsOfAux_nil (n f : Nat) : groupsOfAux n f ([] : List α) = [] := by
  cases f <;> rfl

lemma groupsOfAux_fuel (n : Nat) (f1 : Nat) :
    ∀ (f2 : Nat) (l : List α), l.length ≤ f1 → l.length ≤ f2 →
      groupsOfAux n f1 l = groupsOfAux n f2 l := by
  induction f1 with
  | zero =>
    intro f2 l h1 _
    have : l = [] := List.length_eq_zero.mp (Nat.le_zero.mp h1)
    subst this
    simp [groupsOfAux_nil]
  | succ f ih =>
    intro f2 l h1 h2
    cases l with
    | nil => simp [groupsOfAux_nil]
    | cons x xs =>
      cases f2 with
      | zero => simp at h2
      | succ f2 =>
        simp only [groupsOfAux]
        have hle : (xs.drop n).length ≤ xs.length := by
          simp [List.length_drop]
        exact congrArg _ (ih f2 (xs.drop n)
          (le_trans hle (by simpa using h1))
          (le_trans hle (by simpa using h2)))

lemma groupsOf_nil (n : Nat) : groupsOf n ([] : List α) = [] := rfl

lemma groupsOf_cons (n : Nat) (x : α) (xs : List α) :
    groupsOf n (x :: xs) = (x :: xs.take n) :: groupsOf n (xs.drop n) := by
  simp only [groupsOf, List.length_cons, groupsOfAux]
  exact congrArg _ (groupsOfAux_fuel n xs.length (xs.drop n).length (xs.drop n)
    (by simp [List.length_drop]) le_rfl)

/-- The `segment_parts` grouping of
`create_subtitle_segments_international`.  A negative `lines` makes
`range(0, len(parts), lines)` empty; `lines = 0` is handled (as an error)
by the caller and never reaches this definition with meaningful output. -/
def intlGroups (ml lines : Int) (c : Token) : List (List (List Char)) :=
  if lines < 0 then [] else groupsOf (lines.toNat - 1) (intlParts ml c)

/-- `len("".join(part_group))`. -/
def groupChars (g : List (List Char)) : Nat := (g.map List.length).sum

/-- `total_chars`: the summed character count over all part groups of one
token. -/
def intlTotal (ml lines : Int) (c : Token) : Nat :=
  ((intlGroups ml lines c).map groupChars).sum

/-- Python's binary `max` on rationals, written so that it evaluates by
kernel reduction; it agrees with `max` (see `pyMax_eq_max`). -/
def pyMax (a b : ℚ) : ℚ := if a ≤ b then b else a

lemma pyMax_eq_max (a b : ℚ) : pyMax a b = max a b := (max_def a b).symm

/-- The timing loop of `create_subtitle_segments_international` for one
token: walk the part groups accumulating `current_time`, giving each group
duration `max((chars / total) * duration, 0.5)` (or an even share when the
total character count is zero) and padding its lines to `lines` entries. -/
def intlBuild (lines : Nat) (duration : ℚ) (total ngroups : Nat) :
    ℚ → List (List (List Char)) → List Segment
  | _, [] => []
  | t, g :: gs =>
    let dur : ℚ :=
      if 0 < total then pyMax ((groupChars g : ℚ) / (total : ℚ) * duration) (1/2)
      else duration / (ngroups : ℚ)
    ⟨g ++ List.replicate (lines - g.length) [], t, t + dur⟩
      :: intlBuild lines duration total ngroups (t + dur) gs

/-- All segments `create_subtitle_segments_international` produces from one
input token, before the overlap post-pass. -/
def intlCaptionSegs (ml lines : Int) (c : Token) : List Segment :=
  intlBuild lines.toNat (c.end_ts - c.start_ts) (intlTotal ml lines c)
    (intlGroups ml lines c).length c.start_ts (intlGroups ml lines c)

/-- `Caption.create_subtitle_segments_international`.  With a non-empty
caption list and `lines = 0`, Python's `range(0, len(parts), 0)` raises
`ValueError`, modelled as `Except.error`; otherwise the per-token segments
are concatenated and the overlap post-pass applied. -/
def create_subtitle_segments_international (captions : List Token)
    (ml lines : Int) : Except String (List Segment) :=
  match captions with
  | [] => .ok []
  | _ :: _ =>
    if lines = 0 then .error "range() arg 3 must not be zero"
    else .ok (fixOverlaps ((captions.map (intlCaptionSegs ml lines)).flatten))

/-- Join a list of words with single spaces (Python `" ".join(...)`), used
to state text preservation for the space-delimited branch. -/
def sepJoin : List (List Char) → List Char
  | [] => []
  | [w] => w
  | w :: w2 :: ws => w ++ [spaceChar] ++ sepJoin (w2 :: ws)

/-! ## Helper lemmas: the punctuation classifier -/

lemma puncLoop_eq_true (catP : Char → Bool) :
    ∀ l : List Char, puncLoop catP l = true ↔
      ∀ c ∈ l, pyIsSpace c = false ∧
        (catP c = true ∨ asciiPunct c = true ∨ extraCJK c = true)
  | [] => by simp [puncLoop]
  | ch :: rest => by
    simp only [puncLoop, List.mem_cons]
    by_cases hs : pyIsSpace ch
    · simp [hs]
    · by_cases hp : (catP ch || asciiPunct ch || extraCJK ch) = true
      · have hp2 : catP ch = true ∨ asciiPunct ch = true ∨ extraCJK ch = true := by
          simpa [Bool.or_eq_true, or_assoc] using hp
        simp [hs, hp, puncLoop_eq_true catP rest, hp2]
      · have hp2 : ¬(catP ch = true ∨ asciiPunct ch = true ∨ extraCJK ch = true) := by
          simpa [Bool.or_eq_true, not_or, and_assoc] using hp
        simp [hs, hp, hp2]

/-! ## Helper lemmas: the overlap-correction post-pass -/

lemma fixOverlaps_cons_cons (s t : Segment) (rest : List Segment) :
    fixOverlaps (s :: t :: rest) =
      (if t.start_ts ≤ s.end_ts then { s with end_ts := t.start_ts - 1/20 } else s)
        :: fixOverlaps (t :: rest) := rfl

lemma fixOverlaps_head (t : Segment) (rest : List Segment) :
    ∃ t2 rest2, fixOverlaps (t :: rest) = t2 :: rest2 ∧
      t2.start_ts = t.start_ts ∧ t2.text = t.text := by
  cases rest with
  | nil => exact ⟨t, [], rfl, rfl, rfl⟩
  | cons u us =>
    rw [fixOverlaps_cons_cons]
    by_cases h : u.start_ts ≤ t.end_ts <;> simp [h]

lemma fixOverlaps_chain :
    ∀ l : List Segment,
      List.Chain' (fun a b => a.end_ts ≤ b.start_ts) (fixOverlaps l)
  | [] => by simp [fixOverlaps]
  | [s] => by simp [fixOverlaps]
  | s :: t :: rest => by
    rw [fixOverlaps_cons_cons]
    obtain ⟨t2, rest2, heq, hst, -⟩ := fixOverlaps_head t rest
    rw [heq, List.chain'_cons]
    constructor
    · rw [hst]
      by_cases h : t.start_ts ≤ s.end_ts
      · simp only [if_pos h]
        have : (0 : ℚ) < 1/20 := by norm_num
        linarith
      · simp only [if_neg h]
        linarith [lt_of_not_le h]
    · exact heq ▸ fixOverlaps_chain (t :: rest)

lemma fixOverlaps_map_start :
    ∀ l : List Segment,
      (fixOverlaps l).map Segment.start_ts = l.map Segment.start_ts
  | [] => rfl
  | [s] => rfl
  | s :: t :: rest => by
    rw [fixOverlaps_cons_cons]
    by_cases h : t.start_ts ≤ s.end_ts <;>
      simp [h, fixOverlaps_map_start (t :: rest)]

lemma fixOverlaps_map_text :
    ∀ l : List Segment,
      (fixOverlaps l).map Segment.text = l.map Segment.text
  | [] => rfl
  | [s] => rfl
  | s :: t :: rest => by
    rw [fixOverlaps_cons_cons]
    by_cases h : t.start_ts ≤ s.end_ts <;>
      simp [h, fixOverlaps_map_text (t :: rest)]

lemma fixOverlaps_length (l : List Segment) :
    (fixOverlaps l).length = l.length := by
  have := congrArg List.length (fixOverlaps_map_start l)
  simpa using this

lemma fixOverlaps_getD :
    ∀ (l : List Segment) (i : Nat),
      (fixOverlaps l).getD i default =
        if i + 1 < l.length ∧
            (l.getD (i+1) default).start_ts ≤ (l.getD i default).end_ts
        then { l.getD i default with
               end_ts := (l.getD (i+1) default).start_ts - 1/20 }
        else l.getD i default
  | [], i => by simp [fixOverlaps]
  | [s], i => by
    cases i with
    | zero => simp [fixOverlaps]
    | succ j => simp [fixOverlaps]
  | s :: t :: rest, i => by
    rw [fixOverlaps_cons_cons]
    cases i with
    | zero =>
      by_cases h : t.start_ts ≤ s.end_ts <;>
        simp [h, List.length_cons, Nat.succ_lt_succ_iff, Nat.zero_lt_succ]
    | succ j =>
      have ih := fixOverlaps_getD (t :: rest) j
      simp only [List.getD_cons_succ, List.length_cons, Nat.succ_lt_succ_iff] at ih ⊢
      exact ih

/-! ## Helper lemmas: the international timing loop -/

lemma intlBuild_length (L : Nat) (dur : ℚ) (total n : Nat) :
    ∀ (gs : List (List (List Char))) (t : ℚ),
      (intlBuild L dur total n t gs).length = gs.length
  | [], _ => rfl
  | g :: gs, t => by
    simp [intlBuild, intlBuild_length L dur total n gs]

lemma intlBuild_start (L : Nat) (dur : ℚ) (total n : Nat)
    (gs : List (List (List Char))) (t : ℚ) :
    ∀ s ∈ (intlBuild L dur total n t gs).head?, s.start_ts = t := by
  cases gs with
  | nil => simp [intlBuild]
  | cons g gs => simp [intlBuild]

lemma intlBuild_chain (L : Nat) (dur : ℚ) (total n : Nat) :
    ∀ (gs : List (List (List Char))) (t : ℚ),
      List.Chain' (fun a b => a.end_ts = b.start_ts) (intlBuild L dur total n t gs)
  | [], _ => by simp [intlBuild]
  | g :: gs, t => by
    rw [intlBuild, List.chain'_cons']
    refine ⟨?_, intlBuild_chain L dur total n gs _⟩
    intro b hb
    have := intlBuild_start L dur total n gs _ b hb
    simp [this]

lemma intlBuild_getD (L : Nat) (dur : ℚ) (total n : Nat) :
    ∀ (gs : List (List (List Char))) (t : ℚ) (i : Nat), i < gs.length →
      ((intlBuild L dur total n t gs).getD i default).end_ts -
        ((intlBuild L dur total n t gs).getD i default).start_ts =
        (if 0 < total
         then pyMax ((groupChars (gs.getD i default) : ℚ) / (total : ℚ) * dur) (1/2)
         else dur / (n : ℚ))
  | [], _, i, hi => by simp at hi
  | g :: gs, t, 0, hi => by simp [intlBuild]
  | g :: gs, t, j + 1, hi => by
    have ih := intlBuild_getD L dur total n gs
      (t + (if 0 < total
            then pyMax ((groupChars g : ℚ) / (total : ℚ) * dur) (1/2)
            else dur / (n : ℚ))) j (by simpa using hi)
    simpa [intlBuild] using ih

/-! ## Claim C7 -/

/-- C7: `is_punctuation` returns `True` for a string if and only if the
string is non-empty, contains no whitespace character, and every character
either has a Unicode general category starting with P (here the abstract
table `catP`), or is in the ASCII punctuation set, or is in the fixed
supplementary set of CJK full-width punctuation marks; any single character
failing all three tests makes the result `False`. -/
theorem C7_is_punctuation_iff (catP : Char → Bool) (text : List Char) :
    is_punctuation catP text = true ↔
      text ≠ [] ∧ (∀ c ∈ text, pyIsSpace c = false) ∧
        ∀ c ∈ text, catP c = true ∨ asciiPunct c = true ∨ extraCJK c = true := by
  unfold is_punctuation
  by_cases h : text = []
  · simp [h]
  · rw [if_neg h, puncLoop_eq_true]
    constructor
    · intro hall
      exact ⟨h, fun c hc => (hall c hc).1, fun c hc => (hall c hc).2⟩
    · rintro ⟨-, hws, hcls⟩
      exact fun c hc => ⟨hws c hc, hcls c hc⟩

/-! ## Claim C2 -/

/-- C2: after the overlap-correction post-pass, in either segmenter, every
adjacent pair of returned segments satisfies
`segments[i].end_ts ≤ segments[i+1].start_ts`; the post-pass sets
`segments[i].end_ts` to `segments[i+1].start_ts - 0.05` exactly when
`segments[i].end_ts ≥ segments[i+1].start_ts`, and changes nothing else
(`text`, `start_ts`, the final `end_ts` and the length are untouched). -/
theorem C2_overlap_correction :
    (∀ (catP : Char → Bool) (captions : List Token) (ml lines : Int),
      List.Chain' (fun a b => a.end_ts ≤ b.start_ts)
        (create_subtitle_segments_english catP captions ml lines)) ∧
    (∀ (captions : List Token) (ml lines : Int) (out : List Segment),
      create_subtitle_segments_international captions ml lines = Except.ok out →
      List.Chain' (fun a b => a.end_ts ≤ b.start_ts) out) ∧
    (∀ segs : List Segment,
      (fixOverlaps segs).length = segs.length ∧
      ∀ i : Nat,
        (fixOverlaps segs).getD i default =
          if i + 1 < segs.length ∧
              (segs.getD (i+1) default).start_ts ≤ (segs.getD i default).end_ts
          then { segs.getD i default with
                 end_ts := (segs.getD (i+1) default).start_ts - 1/20 }
          else segs.getD i default) := by
  refine ⟨?_, ?_, ?_⟩
  · intro catP captions ml lines
    exact fixOverlaps_chain (englishRaw catP captions ml lines)
  · intro captions ml lines out hok
    cases captions with
    | nil =>
      simp only [create_subtitle_segments_international] at hok
      cases hok
      exact List.chain'_nil
    | cons c cs =>
      simp only [create_subtitle_segments_international] at hok
      by_cases hl : lines = 0
      · rw [if_pos hl] at hok
        cases hok
      · rw [if_neg hl] at hok
        cases hok
        exact fixOverlaps_chain _
  · intro segs
    exact ⟨fixOverlaps_length segs, fixOverlaps_getD segs⟩

lemma except_ok_of_toOption {ε α : Type} (e : Except ε α) (a : α)
    (h : e.toOption = some a) : e = .ok a := by
  cases e with
  | ok v => simp [Except.toOption] at h; rw [h]
  | error x => simp [Except.toOption] at h

/-- Witness for C2 at a concrete input: the international segmenter on one
token returns a single segment, and the hypothesis of the second conjunct
is discharged by evaluation. -/
theorem C2_witness :
    List.Chain' (fun a b : Segment => a.end_ts ≤ b.start_ts)
      [(⟨[[Char.ofNat 97]], 0, 1⟩ : Segment)] := by
  have hg : intlGroups 1 1 ⟨[Char.ofNat 97], 0, 1⟩ = [[[Char.ofNat 97]]] := by decide
  have ht : intlTotal 1 1 ⟨[Char.ofNat 97], 0, 1⟩ = 1 := by decide
  have h1 : intlCaptionSegs 1 1 ⟨[Char.ofNat 97], 0, 1⟩ =
      [⟨[[Char.ofNat 97]], 0, 1⟩] := by
    rw [intlCaptionSegs, hg, ht]
    simp only [intlBuild, List.length_cons, List.length_nil]
    norm_num [pyMax, groupChars]
  have hok : create_subtitle_segments_international [⟨[Char.ofNat 97], 0, 1⟩] 1 1 =
      Except.ok [⟨[[Char.ofNat 97]], 0, 1⟩] := by
    rw [create_subtitle_segments_international, if_neg (by norm_num)]
    simp only [List.map_cons, List.map_nil, h1, List.flatten, List.append_nil]
    rfl
  exact C2_overlap_correction.2.1 [⟨[Char.ofNat 97], 0, 1⟩] 1 1
    [⟨[[Char.ofNat 97]], 0, 1⟩] hok

/-! ## Claim C3 -/

/-- C3: in `create_subtitle_segments_international`, for every input token
whose chunk character total is positive, each output chunk's duration
before the overlap post-pass equals
`max(0.5, (chunk_chars / total_chars) * (end_ts - start_ts))`, and the
chunks of that token are assigned consecutive, gapless time spans in order,
the first starting exactly at the token's `start_ts` and each subsequent
chunk starting where the previous one ended. -/
theorem C3_proportional_timing (ml lines : Int) (c : Token)
    (_hlines : 1 ≤ lines) (htot : 0 < intlTotal ml lines c) :
    (intlCaptionSegs ml lines c).length = (intlGroups ml lines c).length ∧
    (∀ s ∈ (intlCaptionSegs ml lines c).head?, s.start_ts = c.start_ts) ∧
    List.Chain' (fun a b => a.end_ts = b.start_ts) (intlCaptionSegs ml lines c) ∧
    ∀ i, i < (intlCaptionSegs ml lines c).length →
      ((intlCaptionSegs ml lines c).getD i default).end_ts -
          ((intlCaptionSegs ml lines c).getD i default).start_ts =
        max ((groupChars ((intlGroups ml lines c).getD i default) : ℚ) /
              (intlTotal ml lines c : ℚ) * (c.end_ts - c.start_ts)) (1/2) := by
  refine ⟨intlBuild_length _ _ _ _ _ _, intlBuild_start _ _ _ _ _ _,
    intlBuild_chain _ _ _ _ _ _, ?_⟩
  intro i hi
  rw [intlCaptionSegs] at hi ⊢
  rw [intlBuild_length] at hi
  have := intlBuild_getD lines.toNat (c.end_ts - c.start_ts)
    (intlTotal ml lines c) (intlGroups ml lines c).length
    (intlGroups ml lines c) c.start_ts i hi
  rw [this, if_pos htot, pyMax_eq_max]

/-- Witness for C3: one CJK token of five ideographs over a ten-second
span with `max_length = 2`, `lines = 2`: the chunk totals are positive and
the theorem applies. -/
theorem C3_witness :
    (1 : Int) ≤ 2 ∧
    0 < intlTotal 2 2 ⟨[Char.ofNat 0x4e00, Char.ofNat 0x4e01, Char.ofNat 0x4e02,
        Char.ofNat 0x4e03, Char.ofNat 0x4e04], 0, 10⟩ ∧
    ((intlCaptionSegs 2 2 ⟨[Char.ofNat 0x4e00, Char.ofNat 0x4e01, Char.ofNat 0x4e02,
        Char.ofNat 0x4e03, Char.ofNat 0x4e04], 0, 10⟩).length =
      (intlGroups 2 2 ⟨[Char.ofNat 0x4e00, Char.ofNat 0x4e01, Char.ofNat 0x4e02,
        Char.ofNat 0x4e03, Char.ofNat 0x4e04], 0, 10⟩).length ∧
     (∀ s ∈ (intlCaptionSegs 2 2 ⟨[Char.ofNat 0x4e00, Char.ofNat 0x4e01, Char.ofNat 0x4e02,
        Char.ofNat 0x4e03, Char.ofNat 0x4e04], 0, 10⟩).head?, s.start_ts = 0) ∧
     List.Chain' (fun a b => a.end_ts = b.start_ts)
       (intlCaptionSegs 2 2 ⟨[Char.ofNat 0x4e00, Char.ofNat 0x4e01, Char.ofNat 0x4e02,
        Char.ofNat 0x4e03, Char.ofNat 0x4e04], 0, 10⟩) ∧
     ∀ i, i < (intlCaptionSegs 2 2 ⟨[Char.ofNat 0x4e00, Char.ofNat 0x4e01, Char.ofNat 0x4e02,
        Char.ofNat 0x4e03, Char.ofNat 0x4e04], 0, 10⟩).length →
       ((intlCaptionSegs 2 2 ⟨[Char.ofNat 0x4e00, Char.ofNat 0x4e01, Char.ofNat 0x4e02,
          Char.ofNat 0x4e03, Char.ofNat 0x4e04], 0, 10⟩).getD i default).end_ts -
          ((intlCaptionSegs 2 2 ⟨[Char.ofNat 0x4e00, Char.ofNat 0x4e01, Char.ofNat 0x4e02,
          Char.ofNat 0x4e03, Char.ofNat 0x4e04], 0, 10⟩).getD i default).start_ts =
        max ((groupChars ((intlGroups 2 2 ⟨[Char.ofNat 0x4e00, Char.ofNat 0x4e01,
              Char.ofNat 0x4e02, Char.ofNat 0x4e03, Char.ofNat 0x4e04], 0, 10⟩).getD i default) : ℚ) /
            (intlTotal 2 2 ⟨[Char.ofNat 0x4e00, Char.ofNat 0x4e01, Char.ofNat 0x4e02,
              Char.ofNat 0x4e03, Char.ofNat 0x4e04], 0, 10⟩ : ℚ) * (10 - 0)) (1/2)) := by
  refine ⟨by norm_num, by decide, ?_⟩
  have h := C3_proportional_timing 2 2 ⟨[Char.ofNat 0x4e00, Char.ofNat 0x4e01,
    Char.ofNat 0x4e02, Char.ofNat 0x4e03, Char.ofNat 0x4e04], 0, 10⟩
    (by norm_num) (by decide)
  exact h

/-! ## Helper lemmas: the English segmenter loop -/

/-- Every iteration of the English loop either leaves `segments` and the
pending `segment_start_ts` unchanged, or (on a flush) appends the single
segment `⟨texts, seg_start, c.end_ts⟩` and restarts the pending start at
`c.start_ts + 0.05`. -/
lemma englishStep_seg_start (catP : Char → Bool) (ml lines : Int)
    (st : EState) (c : Token) :
    ((englishStep catP ml lines st c).segments = st.segments ∧
      (englishStep catP ml lines st c).seg_start = st.seg_start) ∨
    ((englishStep catP ml lines st c).segments
        = st.segments ++ [⟨st.texts, st.seg_start, c.end_ts⟩] ∧
      (englishStep catP ml lines st c).seg_start = c.start_ts + 1/20) := by
  simp only [englishStep]
  split_ifs with h1 h2 h3
  · left; exact ⟨rfl, rfl⟩
  · left; exact ⟨rfl, rfl⟩
  · right; exact ⟨rfl, rfl⟩
  · left; exact ⟨rfl, rfl⟩

/-- Invariant propagation for the English loop: if the accumulated segments
have non-decreasing `start_ts`, all bounded by the pending start, and the
pending start is at most `start_ts + 0.05` of every remaining token, then
the same holds after folding over tokens with non-decreasing `start_ts`. -/
lemma english_fold_start_mono (catP : Char → Bool) (ml lines : Int) :
    ∀ (caps : List Token) (st : EState),
      List.Pairwise (fun a b : Token => a.start_ts ≤ b.start_ts) caps →
      List.Chain' (fun a b : Segment => a.start_ts ≤ b.start_ts) st.segments →
      (∀ s ∈ st.segments, s.start_ts ≤ st.seg_start) →
      (∀ c ∈ caps, st.seg_start ≤ c.start_ts + 1/20) →
      List.Chain' (fun a b : Segment => a.start_ts ≤ b.start_ts)
          ((caps.foldl (englishStep catP ml lines) st).segments) ∧
        ∀ s ∈ (caps.foldl (englishStep catP ml lines) st).segments,
          s.start_ts ≤ (caps.foldl (englishStep catP ml lines) st).seg_start
  | [], st, _, h2, h3, _ => ⟨h2, h3⟩
  | c :: cs, st, hmono, h2, h3, h4 => by
    rw [List.foldl_cons]
    obtain ⟨hhead, htail⟩ := List.pairwise_cons.mp hmono
    have hc : st.seg_start ≤ c.start_ts + 1/20 := h4 c (List.mem_cons_self c cs)
    rcases englishStep_seg_start catP ml lines st c with ⟨hseg, hstart⟩ | ⟨hseg, hstart⟩
    · exact english_fold_start_mono catP ml lines cs (englishStep catP ml lines st c)
        htail (hseg ▸ h2) (fun s hs => hstart ▸ h3 s (hseg ▸ hs))
        (fun c2 hc2 => hstart ▸ h4 c2 (List.mem_cons_of_mem c hc2))
    · refine english_fold_start_mono catP ml lines cs (englishStep catP ml lines st c)
        htail ?_ ?_ ?_
      · rw [hseg, List.chain'_append]
        refine ⟨h2, List.chain'_singleton _, ?_⟩
        intro x hx y hy
        simp only [List.head?_cons, Option.mem_def, Option.some.injEq] at hy
        subst hy
        exact h3 x (List.mem_of_mem_getLast? hx)
      · intro s hs
        rw [hseg] at hs
        rw [hstart]
        rcases List.mem_append.mp hs with hold | hnew
        · exact le_trans (h3 s hold) hc
        · simp only [List.mem_singleton] at hnew
          subst hnew
          exact hc
      · intro c2 hc2
        rw [hstart]
        have : c.start_ts ≤ c2.start_ts := hhead c2 hc2
        linarith

/-- The segments `englishRaw` returns have non-decreasing `start_ts` when
the input tokens do. -/
lemma englishRaw_start_mono (catP : Char → Bool) (captions : List Token)
    (ml lines : Int)
    (hmono : List.Pairwise (fun a b : Token => a.start_ts ≤ b.start_ts) captions) :
    List.Chain' (fun a b : Segment => a.start_ts ≤ b.start_ts)
      (englishRaw catP captions ml lines) := by
  cases captions with
  | nil => simp [englishRaw]
  | cons c0 cs =>
    rw [englishRaw]
    have h0 : ∀ c ∈ c0 :: cs, (c0.start_ts : ℚ) ≤ c.start_ts + 1/20 := by
      intro c hc
      rcases List.mem_cons.mp hc with h | h
      · subst h; linarith
      · have := (List.pairwise_cons.mp hmono).1 c h
        linarith
    obtain ⟨hchain, hbound⟩ := english_fold_start_mono catP ml lines (c0 :: cs)
      ⟨[], List.replicate lines.toNat [], 0, c0.start_ts, c0.end_ts⟩
      hmono List.chain'_nil (by intro s hs; simp at hs) h0
    set fin := (c0 :: cs).foldl (englishStep catP ml lines)
      ⟨[], List.replicate lines.toNat [], 0, c0.start_ts, c0.end_ts⟩ with hfin
    by_cases hany : fin.texts.any (fun l => l ≠ [])
    · rw [if_pos hany, List.chain'_append]
      refine ⟨hchain, List.chain'_singleton _, ?_⟩
      intro x hx y hy
      simp only [List.head?_cons, Option.mem_def, Option.some.injEq] at hy
      subst hy
      exact hbound x (List.mem_of_mem_getLast? hx)
    · rw [if_neg hany]
      exact hchain

/-! ## Claim C1 -/

/-- C1 is refuted on the international segmenter: two valid tokens
(`start_ts ≤ end_ts`, non-overlapping and in order), `max_length = 1`,
`lines = 1`.  The first token has four chunks whose durations are floored
at 0.5s, pushing the fourth chunk's start to 1.5, past the second token's
chunk start of 1.0: the output `start_ts` sequence `0, 1/2, 1, 3/2, 1` is
not non-decreasing. -/
theorem C1_counterexample :
    create_subtitle_segments_international
        [⟨[Char.ofNat 0x4e00, Char.ofNat 0x4e01, Char.ofNat 0x4e02, Char.ofNat 0x4e03], 0, 1⟩,
         ⟨[Char.ofNat 0x4e04], 1, 2⟩] 1 1 =
      Except.ok
        [⟨[[Char.ofNat 0x4e00]], 0, 9/20⟩, ⟨[[Char.ofNat 0x4e01]], 1/2, 19/20⟩,
         ⟨[[Char.ofNat 0x4e02]], 1, 29/20⟩, ⟨[[Char.ofNat 0x4e03]], 3/2, 19/20⟩,
         ⟨[[Char.ofNat 0x4e04]], 1, 2⟩] ∧
    ¬ List.Chain' (fun a b : Segment => a.start_ts ≤ b.start_ts)
        [⟨[[Char.ofNat 0x4e00]], 0, 9/20⟩, ⟨[[Char.ofNat 0x4e01]], 1/2, 19/20⟩,
         ⟨[[Char.ofNat 0x4e02]], 1, 29/20⟩, ⟨[[Char.ofNat 0x4e03]], 3/2, 19/20⟩,
         ⟨[[Char.ofNat 0x4e04]], 1, 2⟩] := by
  constructor
  · have h1 : intlCaptionSegs 1 1 ⟨[Char.ofNat 0x4e00, Char.ofNat 0x4e01,
        Char.ofNat 0x4e02, Char.ofNat 0x4e03], 0, 1⟩ =
        [⟨[[Char.ofNat 0x4e00]], 0, 1/2⟩, ⟨[[Char.ofNat 0x4e01]], 1/2, 1⟩,
         ⟨[[Char.ofNat 0x4e02]], 1, 3/2⟩, ⟨[[Char.ofNat 0x4e03]], 3/2, 2⟩] := by
      have hg : intlGroups 1 1 ⟨[Char.ofNat 0x4e00, Char.ofNat 0x4e01,
          Char.ofNat 0x4e02, Char.ofNat 0x4e03], 0, 1⟩ =
          [[[Char.ofNat 0x4e00]], [[Char.ofNat 0x4e01]],
           [[Char.ofNat 0x4e02]], [[Char.ofNat 0x4e03]]] := by decide
      have ht : intlTotal 1 1 ⟨[Char.ofNat 0x4e00, Char.ofNat 0x4e01,
          Char.ofNat 0x4e02, Char.ofNat 0x4e03], 0, 1⟩ = 4 := by decide
      rw [intlCaptionSegs, hg, ht]
      simp only [intlBuild, List.length_cons, List.length_nil]
      norm_num [pyMax, groupChars]
    have h2 : intlCaptionSegs 1 1 ⟨[Char.ofNat 0x4e04], 1, 2⟩ =
        [⟨[[Char.ofNat 0x4e04]], 1, 2⟩] := by
      have hg : intlGroups 1 1 ⟨[Char.ofNat 0x4e04], 1, 2⟩ =
          [[[Char.ofNat 0x4e04]]] := by decide
      have ht : intlTotal 1 1 ⟨[Char.ofNat 0x4e04], 1, 2⟩ = 1 := by decide
      rw [intlCaptionSegs, hg, ht]
      simp only [intlBuild, List.length_cons, List.length_nil]
      norm_num [pyMax, groupChars]
    rw [create_subtitle_segments_international]
    rw [if_neg (by norm_num)]
    simp only [List.map_cons, List.map_nil, h1, h2]
    simp only [List.flatten, List.append_nil, List.cons_append, List.nil_append]
    norm_num [fixOverlaps]
  · simp only [List.chain'_cons, List.chain'_singleton]
    norm_num

/-- C1 amended: for valid, time-ordered input tokens the claim holds for
`create_subtitle_segments_english` (for any `max_length` and `lines`); the
international segmenter violates it when the 0.5-second duration floor
pushes one token's chunk clock past the next token's `start_ts`
(see the counterexample). -/
theorem C1_english_start_mono (catP : Char → Bool) (captions : List Token)
    (ml lines : Int)
    (_hvalid : ∀ c ∈ captions, c.start_ts ≤ c.end_ts)
    (hmono : List.Chain'
      (fun a b : Token => a.start_ts ≤ b.start_ts ∧ a.end_ts ≤ b.end_ts) captions)
    (_hml : 1 ≤ ml) (_hlines : 1 ≤ lines) :
    List.Chain' (fun a b : Segment => a.start_ts ≤ b.start_ts)
      (create_subtitle_segments_english catP captions ml lines) := by
  have htrans : ∀ {l : List Token}, List.Chain'
      (fun a b : Token => a.start_ts ≤ b.start_ts ∧ a.end_ts ≤ b.end_ts) l →
      List.Pairwise (fun a b : Token => a.start_ts ≤ b.start_ts ∧ a.end_ts ≤ b.end_ts) l := by
    intro l hl
    exact (@List.chain'_iff_pairwise _ _
      ⟨fun a b c hab hbc => ⟨le_trans hab.1 hbc.1, le_trans hab.2 hbc.2⟩⟩ l).mp hl
  have hpair : List.Pairwise (fun a b : Token => a.start_ts ≤ b.start_ts) captions :=
    (htrans hmono).imp (fun h => h.1)
  have hraw := englishRaw_start_mono catP captions ml lines hpair
  rw [create_subtitle_segments_english]
  have hmap := fixOverlaps_map_start (englishRaw catP captions ml lines)
  rw [← List.chain'_map Segment.start_ts, hmap, List.chain'_map Segment.start_ts]
  exact hraw

/-- Witness for the amended C1 theorem: two ordered tokens, all hypotheses
discharged by evaluation. -/
theorem C1_witness :
    List.Chain' (fun a b : Segment => a.start_ts ≤ b.start_ts)
      (create_subtitle_segments_english (fun _ => false)
        [⟨[Char.ofNat 97], 0, 1⟩, ⟨[Char.ofNat 98], 2, 3⟩] 1 1) :=
  C1_english_start_mono (fun _ => false)
    [⟨[Char.ofNat 97], 0, 1⟩, ⟨[Char.ofNat 98], 2, 3⟩] 1 1
    (by intro c hc; rcases List.mem_cons.mp hc with h | h
        · subst h; norm_num
        · simp only [List.mem_singleton] at h; subst h; norm_num)
    (by refine List.chain'_cons.mpr ⟨⟨by norm_num, by norm_num⟩, List.chain'_singleton _⟩)
    (by norm_num) (by norm_num)

/-! ## Counterexamples on the English segmenter (claims C4, C5, C6, C9) -/

/-- C4 is refuted: three tokens all spanning `[0, 1]`, `max_length = 1`,
`lines = 1`.  The overlap post-pass clamps the first segment's `end_ts` to
`start_ts2 - 0.05 = 0`, equal to its own `start_ts`, and the second
segment even gets `end_ts = 0 < start_ts = 1/20`; so after overlap
correction `start_ts < end_ts` fails. -/
theorem C4_counterexample :
    create_subtitle_segments_english (fun _ => false)
        [⟨[Char.ofNat 97], 0, 1⟩, ⟨[Char.ofNat 98], 0, 1⟩, ⟨[Char.ofNat 99], 0, 1⟩] 1 1 =
      [⟨[[Char.ofNat 97]], 0, 0⟩, ⟨[[Char.ofNat 98]], 1/20, 0⟩,
       ⟨[[Char.ofNat 99]], 1/20, 1⟩] ∧
    ¬ ∀ s ∈ [(⟨[[Char.ofNat 97]], 0, 0⟩ : Segment), ⟨[[Char.ofNat 98]], 1/20, 0⟩,
       ⟨[[Char.ofNat 99]], 1/20, 1⟩], s.start_ts < s.end_ts := by
  constructor
  · have h1 : englishStep (fun _ => false) 1 1 ⟨[], [[]], 0, 0, 1⟩ ⟨[Char.ofNat 97], 0, 1⟩ =
        ⟨[], [[Char.ofNat 97]], 0, 0, 1⟩ := by
      simp only [englishStep]
      rw [if_neg (by decide), if_neg (by decide)]
      simp only [EState.mk.injEq]
      and_intros <;> first | rfl | decide
    have h2 : englishStep (fun _ => false) 1 1 ⟨[], [[Char.ofNat 97]], 0, 0, 1⟩
        ⟨[Char.ofNat 98], 0, 1⟩ =
        ⟨[⟨[[Char.ofNat 97]], 0, 1⟩], [[Char.ofNat 98]], 0, 1/20, 1⟩ := by
      simp only [englishStep]
      rw [if_neg (by decide), if_pos (by decide)]
      simp only [EState.mk.injEq]
      and_intros <;> first | rfl | decide | norm_num
    have h3 : englishStep (fun _ => false) 1 1
        ⟨[⟨[[Char.ofNat 97]], 0, 1⟩], [[Char.ofNat 98]], 0, 1/20, 1⟩
        ⟨[Char.ofNat 99], 0, 1⟩ =
        ⟨[⟨[[Char.ofNat 97]], 0, 1⟩, ⟨[[Char.ofNat 98]], 1/20, 1⟩],
         [[Char.ofNat 99]], 0, 1/20, 1⟩ := by
      simp only [englishStep]
      rw [if_neg (by decide), if_pos (by decide)]
      simp only [EState.mk.injEq]
      and_intros <;> first | rfl | decide | norm_num
    rw [create_subtitle_segments_english]
    simp only [englishRaw, Int.toNat_one, List.replicate_one]
    rw [List.foldl_cons, h1, List.foldl_cons, h2, List.foldl_cons, h3, List.foldl_nil]
    rw [if_pos (by decide)]
    simp only [List.cons_append, List.nil_append]
    norm_num [fixOverlaps]
  · intro hall
    have := hall ⟨[[Char.ofNat 97]], 0, 0⟩ (by simp)
    simp at this

/-- C5 is refuted: tokens `a : [0, 1]` and `b : [2, 3]`, `max_length = 1`,
`lines = 1`.  Token `b` triggers the flush; the segment emitted at that
point contains only token `a` but its `end_ts` is `3` — the end timestamp
of the triggering token `b` (written by the `segment_end_ts = end_ts`
update at the top of the loop, before the flush) — not `1`, the end
timestamp of the last token actually placed into it.  The second half of
the claim (pending start `= b.start_ts + 0.05 = 41/20`) does hold. -/
theorem C5_counterexample :
    englishRaw (fun _ => false) [⟨[Char.ofNat 97], 0, 1⟩, ⟨[Char.ofNat 98], 2, 3⟩] 1 1 =
      [⟨[[Char.ofNat 97]], 0, 3⟩, ⟨[[Char.ofNat 98]], 41/20, 3⟩] ∧
    (3 : ℚ) ≠ 1 := by
  constructor
  · have h1 : englishStep (fun _ => false) 1 1 ⟨[], [[]], 0, 0, 1⟩ ⟨[Char.ofNat 97], 0, 1⟩ =
        ⟨[], [[Char.ofNat 97]], 0, 0, 1⟩ := by
      simp only [englishStep]
      rw [if_neg (by decide), if_neg (by decide)]
      simp only [EState.mk.injEq]
      and_intros <;> first | rfl | decide
    have h2 : englishStep (fun _ => false) 1 1 ⟨[], [[Char.ofNat 97]], 0, 0, 1⟩
        ⟨[Char.ofNat 98], 2, 3⟩ =
        ⟨[⟨[[Char.ofNat 97]], 0, 3⟩], [[Char.ofNat 98]], 0, 41/20, 3⟩ := by
      simp only [englishStep]
      rw [if_neg (by decide), if_pos (by decide)]
      simp only [EState.mk.injEq]
      and_intros <;> first | rfl | decide | norm_num
    simp only [englishRaw, Int.toNat_one, List.replicate_one]
    rw [List.foldl_cons, h1, List.foldl_cons, h2, List.foldl_nil]
    rw [if_pos (by decide)]
    simp only [List.cons_append, List.nil_append]
  · norm_num

/-- C6 is refuted: tokens `"ab" : [0, 1]` and `"c" : [1, 2]`,
`max_length = 3`, `lines = 1`.  Both tokens have length at most 3 and are
not punctuation, yet the output line is `"ab c"` of length `4 > 3`: the
length check `len(line + text) > max_length` does not count the separating
space that the append then inserts. -/
theorem C6_counterexample :
    create_subtitle_segments_english (fun _ => false)
        [⟨[Char.ofNat 97, Char.ofNat 98], 0, 1⟩, ⟨[Char.ofNat 99], 1, 2⟩] 3 1 =
      [⟨[[Char.ofNat 97, Char.ofNat 98, spaceChar, Char.ofNat 99]], 0, 2⟩] ∧
    (∀ c ∈ [(⟨[Char.ofNat 97, Char.ofNat 98], 0, 1⟩ : Token), ⟨[Char.ofNat 99], 1, 2⟩],
      (c.text.length : Int) ≤ 3 ∧ is_punctuation (fun _ => false) c.text = false) ∧
    ¬ (([Char.ofNat 97, Char.ofNat 98, spaceChar, Char.ofNat 99].length : Int) ≤ 3) := by
  refine ⟨?_, by decide, by decide⟩
  have h1 : englishStep (fun _ => false) 3 1 ⟨[], [[]], 0, 0, 1⟩
      ⟨[Char.ofNat 97, Char.ofNat 98], 0, 1⟩ =
      ⟨[], [[Char.ofNat 97, Char.ofNat 98]], 0, 0, 1⟩ := by
    simp only [englishStep]
    rw [if_neg (by decide), if_neg (by decide)]
    simp only [EState.mk.injEq]
    and_intros <;> first | rfl | decide
  have h2 : englishStep (fun _ => false) 3 1 ⟨[], [[Char.ofNat 97, Char.ofNat 98]], 0, 0, 1⟩
      ⟨[Char.ofNat 99], 1, 2⟩ =
      ⟨[], [[Char.ofNat 97, Char.ofNat 98, spaceChar, Char.ofNat 99]], 0, 0, 2⟩ := by
    simp only [englishStep]
    rw [if_neg (by decide), if_neg (by decide)]
    simp only [EState.mk.injEq]
    and_intros <;> first | rfl | decide
  rw [create_subtitle_segments_english]
  simp only [englishRaw, Int.toNat_one, List.replicate_one]
  rw [List.foldl_cons, h1, List.foldl_cons, h2, List.foldl_nil]
  rw [if_pos (by decide)]
  simp only [List.nil_append]
  rfl

/-- C9 is refuted: with the malformed configuration `max_length = 0`,
`lines = 0` and a non-empty input, `create_subtitle_segments_english`
performs no validation and silently returns a (non-empty) segment list —
there is no rejection at the call boundary. -/
theorem C9_counterexample :
    create_subtitle_segments_english (fun _ => false) [⟨[Char.ofNat 97], 0, 1⟩] 0 0 =
      [⟨[], 0, 1⟩] ∧
    [(⟨[], 0, 1⟩ : Segment)] ≠ [] := by
  constructor
  · have h1 : englishStep (fun _ => false) 0 0 ⟨[], [], 0, 0, 1⟩ ⟨[Char.ofNat 97], 0, 1⟩ =
        ⟨[⟨[], 0, 1⟩], [], 0, 1/20, 1⟩ := by
      simp only [englishStep]
      rw [if_neg (by decide), if_pos (by decide)]
      simp only [EState.mk.injEq]
      and_intros <;> first | rfl | decide | norm_num
    rw [create_subtitle_segments_english]
    simp only [englishRaw, Int.toNat_zero, List.replicate_zero]
    rw [List.foldl_cons, h1, List.foldl_nil]
    rw [if_neg (by decide)]
    rfl
  · simp

/-! ## Claim C5 (amended) -/

/-- C5 amended: when a non-punctuation token pushes the line cursor past
the last line, the segment emitted at that point has `end_ts` equal to the
end timestamp of the TRIGGERING token (the token currently being processed,
which is not placed into that segment) — because `segment_end_ts` is
updated at the top of the loop body, before the flush — and the new
segment's pending `start_ts` equals the triggering token's `start_ts` plus
0.05 seconds. -/
theorem C5_flush_semantics (catP : Char → Bool) (ml lines : Int)
    (st : EState) (c : Token)
    (hp : is_punctuation catP c.text = false)
    (hf : lines ≤ ((advanceCursor ml lines st.texts st.current_line c.text : Nat) : Int)) :
    (englishStep catP ml lines st c).segments
        = st.segments ++ [⟨st.texts, st.seg_start, c.end_ts⟩] ∧
    (englishStep catP ml lines st c).seg_start = c.start_ts + 1/20 := by
  simp only [englishStep, hp, Bool.false_eq_true, if_false, if_pos hf]
  and_intros <;> first | rfl | trivial

/-- Witness for the amended C5 theorem at a concrete flush step. -/
theorem C5_witness :
    is_punctuation (fun _ => false) ([Char.ofNat 98] : List Char) = false ∧
    (1 : Int) ≤ ((advanceCursor 1 1 [[Char.ofNat 97]] 0 [Char.ofNat 98] : Nat) : Int) ∧
    ((englishStep (fun _ => false) 1 1 ⟨[], [[Char.ofNat 97]], 0, 0, 1⟩
        ⟨[Char.ofNat 98], 2, 3⟩).segments = [⟨[[Char.ofNat 97]], 0, 3⟩] ∧
      (englishStep (fun _ => false) 1 1 ⟨[], [[Char.ofNat 97]], 0, 0, 1⟩
        ⟨[Char.ofNat 98], 2, 3⟩).seg_start = 2 + 1/20) :=
  ⟨by decide, by decide,
    C5_flush_semantics (fun _ => false) 1 1 ⟨[], [[Char.ofNat 97]], 0, 0, 1⟩
      ⟨[Char.ofNat 98], 2, 3⟩ (by decide) (by decide)⟩

/-! ## Claim C9 (amended) -/

lemma flatten_eq_nil_of (f : Token → List Segment) :
    ∀ l : List Token, (∀ c ∈ l, f c = []) → (l.map f).flatten = []
  | [], _ => rfl
  | c :: cs, h => by
    simp only [List.map_cons, List.flatten_cons, h c (List.mem_cons_self c cs),
      List.nil_append]
    exact flatten_eq_nil_of f cs (fun c2 hc2 => h c2 (List.mem_cons_of_mem c hc2))

/-- C9 amended: neither segmenter validates its configuration at the call
boundary.  `create_subtitle_segments_international` fails only incidentally
— `lines = 0` with a non-empty input hits Python's `range()` step-zero
`ValueError` — while a negative `lines` silently yields an empty segment
list; and `create_subtitle_segments_english` never raises at all,
silently producing segments even for `max_length = 0`, `lines = 0`
(see the counterexample for a non-empty output on a malformed
configuration). -/
theorem C9_no_validation :
    (∀ (captions : List Token) (ml : Int), captions ≠ [] →
      create_subtitle_segments_international captions ml 0 =
        Except.error "range() arg 3 must not be zero") ∧
    (∀ (captions : List Token) (ml lines : Int), lines < 0 →
      create_subtitle_segments_international captions ml lines = Except.ok []) ∧
    (∀ (catP : Char → Bool) (captions : List Token) (ml lines : Int),
      create_subtitle_segments_english catP captions ml lines =
        fixOverlaps (englishRaw catP captions ml lines)) := by
  refine ⟨?_, ?_, fun _ _ _ _ => rfl⟩
  · intro captions ml hne
    cases captions with
    | nil => exact absurd rfl hne
    | cons c cs =>
      rw [create_subtitle_segments_international, if_pos rfl]
  · intro captions ml lines hneg
    cases captions with
    | nil => rfl
    | cons c cs =>
      rw [create_subtitle_segments_international, if_neg (by omega)]
      have hall : ∀ c2 ∈ c :: cs, intlCaptionSegs ml lines c2 = [] := by
        intro c2 _
        rw [intlCaptionSegs, intlGroups, if_pos hneg]
        rfl
      rw [flatten_eq_nil_of _ _ hall]
      rfl

/-- Witness for the amended C9 theorem at concrete malformed
configurations. -/
theorem C9_witness :
    ([(⟨[Char.ofNat 97], 0, 1⟩ : Token)] ≠ []) ∧
    ((-1 : Int) < 0) ∧
    (create_subtitle_segments_international [⟨[Char.ofNat 97], 0, 1⟩] 0 0 =
        Except.error "range() arg 3 must not be zero" ∧
      create_subtitle_segments_international [⟨[Char.ofNat 97], 0, 1⟩] 0 (-1) =
        Except.ok []) :=
  ⟨by simp, by norm_num,
    C9_no_validation.1 [⟨[Char.ofNat 97], 0, 1⟩] 0 (by simp),
    C9_no_validation.2.1 [⟨[Char.ofNat 97], 0, 1⟩] 0 (-1) (by norm_num)⟩

/-! ## Claim C8: line-count invariant -/

lemma appendWord_length (lines : Int) (texts : List (List Char)) (cl : Nat)
    (t : List Char) : (appendWord lines texts cl t).length = texts.length := by
  unfold appendWord appendAt
  split_ifs <;> simp

lemma englishStep_texts_length (catP : Char → Bool) (ml lines : Int)
    (st : EState) (c : Token)
    (h1 : st.texts.length = lines.toNat)
    (h2 : ∀ s ∈ st.segments, s.text.length = lines.toNat) :
    (englishStep catP ml lines st c).texts.length = lines.toNat ∧
    ∀ s ∈ (englishStep catP ml lines st c).segments,
      s.text.length = lines.toNat := by
  simp only [englishStep]
  split_ifs with hp hc hf
  · exact ⟨by simp [appendAt, h1], h2⟩
  · exact ⟨h1, h2⟩
  · refine ⟨by simp [appendWord_length], ?_⟩
    intro s hs
    rcases List.mem_append.mp hs with h | h
    · exact h2 s h
    · simp only [List.mem_singleton] at h
      subst h
      exact h1
  · exact ⟨by simp [appendWord_length, h1], h2⟩

lemma english_fold_texts_length (catP : Char → Bool) (ml lines : Int) :
    ∀ (caps : List Token) (st : EState),
      st.texts.length = lines.toNat →
      (∀ s ∈ st.segments, s.text.length = lines.toNat) →
      (caps.foldl (englishStep catP ml lines) st).texts.length = lines.toNat ∧
        ∀ s ∈ (caps.foldl (englishStep catP ml lines) st).segments,
          s.text.length = lines.toNat
  | [], st, h1, h2 => ⟨h1, h2⟩
  | c :: cs, st, h1, h2 => by
    rw [List.foldl_cons]
    obtain ⟨g1, g2⟩ := englishStep_texts_length catP ml lines st c h1 h2
    exact english_fold_texts_length catP ml lines cs _ g1 g2

lemma fixOverlaps_text_mem (l : List Segment) (s : Segment)
    (hs : s ∈ fixOverlaps l) : s.text ∈ l.map Segment.text := by
  rw [← fixOverlaps_map_text]
  exact List.mem_map_of_mem Segment.text hs

lemma englishRaw_text_length (catP : Char → Bool) (captions : List Token)
    (ml lines : Int) :
    ∀ s ∈ englishRaw catP captions ml lines, s.text.length = lines.toNat := by
  cases captions with
  | nil => simp [englishRaw]
  | cons c0 cs =>
    simp only [englishRaw]
    obtain ⟨g1, g2⟩ := english_fold_texts_length catP ml lines (c0 :: cs)
      ⟨[], List.replicate lines.toNat [], 0, c0.start_ts, c0.end_ts⟩
      (by simp) (by intro s hs; simp at hs)
    split_ifs with hany
    · intro s hs
      rcases List.mem_append.mp hs with h | h
      · exact g2 s h
      · simp only [List.mem_singleton] at h
        subst h
        exact g1
    · exact g2

lemma groupsOfAux_length_le (n : Nat) :
    ∀ (fuel : Nat) (l : List α) (g : List α),
      g ∈ groupsOfAux n fuel l → g.length ≤ n + 1
  | _, [], g, hg => by rw [groupsOfAux_nil] at hg; cases hg
  | 0, x :: xs, g, hg => by cases hg
  | fuel + 1, x :: xs, g, hg => by
    rw [groupsOfAux] at hg
    rcases List.mem_cons.mp hg with h | h
    · subst h
      simp only [List.length_cons, List.length_take]
      omega
    · exact groupsOfAux_length_le n fuel (xs.drop n) g h

lemma intlGroups_length_le (ml lines : Int) (c : Token) (hl : 1 ≤ lines) :
    ∀ g ∈ intlGroups ml lines c, g.length ≤ lines.toNat := by
  intro g hg
  rw [intlGroups, if_neg (by omega)] at hg
  have h2 := groupsOfAux_length_le (lines.toNat - 1) _ _ g hg
  omega

lemma intlBuild_text_mem (L : Nat) (dur : ℚ) (total n : Nat) :
    ∀ (gs : List (List (List Char))) (t : ℚ) (s : Segment),
      s ∈ intlBuild L dur total n t gs →
      ∃ g ∈ gs, s.text = g ++ List.replicate (L - g.length) []
  | [], t, s, hs => by rw [intlBuild] at hs; cases hs
  | g :: gs, t, s, hs => by
    rw [intlBuild] at hs
    rcases List.mem_cons.mp hs with h | h
    · exact ⟨g, List.mem_cons_self g gs, by rw [h]⟩
    · obtain ⟨g2, hg2, hts⟩ := intlBuild_text_mem L dur total n gs _ s h
      exact ⟨g2, List.mem_cons_of_mem g hg2, hts⟩

lemma intlCaptionSegs_text_length (ml lines : Int) (c : Token)
    (hl : 1 ≤ lines) :
    ∀ s ∈ intlCaptionSegs ml lines c, s.text.length = lines.toNat := by
  intro s hs
  obtain ⟨g, hg, hts⟩ := intlBuild_text_mem _ _ _ _ _ _ s hs
  have hle := intlGroups_length_le ml lines c hl g hg
  rw [hts]
  simp only [List.length_append, List.length_replicate]
  omega

/-- C8: for every input and every configuration with `lines ≥ 1`, every
segment returned by `create_subtitle_segments_english` and by
`create_subtitle_segments_international` has a `text` field that is a list
of exactly `lines` strings (empty strings pad any unused slots). -/
theorem C8_line_count (catP : Char → Bool) (captions : List Token)
    (ml lines : Int) (hlines : 1 ≤ lines) :
    (∀ s ∈ create_subtitle_segments_english catP captions ml lines,
      s.text.length = lines.toNat) ∧
    ∀ out, create_subtitle_segments_international captions ml lines = Except.ok out →
      ∀ s ∈ out, s.text.length = lines.toNat := by
  constructor
  · intro s hs
    rw [create_subtitle_segments_english] at hs
    have hmem := fixOverlaps_text_mem _ _ hs
    obtain ⟨s0, hs0, hts⟩ := List.mem_map.mp hmem
    rw [← hts]
    exact englishRaw_text_length catP captions ml lines s0 hs0
  · intro out hok s hs
    cases captions with
    | nil =>
      simp only [create_subtitle_segments_international] at hok
      cases hok
      cases hs
    | cons c cs =>
      rw [create_subtitle_segments_international, if_neg (by omega)] at hok
      cases hok
      have hmem := fixOverlaps_text_mem _ _ hs
      obtain ⟨s0, hs0, hts⟩ := List.mem_map.mp hmem
      rw [← hts]
      obtain ⟨segs, hsegs, hs02⟩ := List.mem_flatten.mp hs0
      obtain ⟨c2, _, hc2⟩ := List.mem_map.mp hsegs
      subst hc2
      exact intlCaptionSegs_text_length ml lines c2 hlines s0 hs02

/-- Witness for C8 at a concrete input and configuration. -/
theorem C8_witness :
    (1 : Int) ≤ 2 ∧
    (∀ s ∈ create_subtitle_segments_english (fun _ => false)
        [⟨[Char.ofNat 97], 0, 1⟩] 3 2, s.text.length = (2 : Int).toNat) ∧
    ∀ out, create_subtitle_segments_international [⟨[Char.ofNat 97], 0, 1⟩] 3 2 =
        Except.ok out → ∀ s ∈ out, s.text.length = (2 : Int).toNat :=
  ⟨by norm_num,
    C8_line_count (fun _ => false) [⟨[Char.ofNat 97], 0, 1⟩] 3 2 (by norm_num)⟩

/-! ## Claim C4 (amended): positivity before the overlap post-pass -/

lemma cjkSplitAux_ne_nil (ml : Int) (hml : 1 ≤ ml) :
    ∀ (l cur : List Char), ∀ p ∈ cjkSplitAux ml cur l, p ≠ []
  | [], cur, p, hp => by
    simp only [cjkSplitAux] at hp
    split_ifs at hp with h
    · cases hp
    · simp only [List.mem_singleton] at hp
      subst hp
      exact h
  | ch :: rest, cur, p, hp => by
    simp only [cjkSplitAux] at hp
    split_ifs at hp with h
    · rcases List.mem_cons.mp hp with h2 | h2
      · subst h2
        intro hnil
        subst hnil
        simp only [List.length_nil, Nat.cast_zero, zero_add] at h
        omega
      · exact cjkSplitAux_ne_nil ml hml rest [ch] p h2
    · exact cjkSplitAux_ne_nil ml hml rest (cur ++ [ch]) p hp

lemma pySplitAux_sound :
    ∀ (l acc : List Char), (∀ c ∈ acc, pyIsSpace c = false) →
      ∀ w ∈ pySplitAux acc l, w ≠ [] ∧ ∀ c ∈ w, pyIsSpace c = false
  | [], acc, hacc, w, hw => by
    simp only [pySplitAux] at hw
    split_ifs at hw with h
    · cases hw
    · simp only [List.mem_singleton] at hw
      subst hw
      refine ⟨by simpa using h, ?_⟩
      intro c hc
      exact hacc c (List.mem_reverse.mp hc)
  | ch :: cs, acc, hacc, w, hw => by
    simp only [pySplitAux] at hw
    split_ifs at hw with h1 h2
    · exact pySplitAux_sound cs [] (by simp) w hw
    · rcases List.mem_cons.mp hw with h3 | h3
      · subst h3
        refine ⟨by simpa using h2, ?_⟩
        intro c hc
        exact hacc c (List.mem_reverse.mp hc)
      · exact pySplitAux_sound cs [] (by simp) w h3
    · refine pySplitAux_sound cs (ch :: acc) ?_ w hw
      intro c hc
      rcases List.mem_cons.mp hc with h3 | h3
      · subst h3
        simpa using h1
      · exact hacc c h3

lemma pySplit_sound (l : List Char) :
    ∀ w ∈ pySplit l, w ≠ [] ∧ ∀ c ∈ w, pyIsSpace c = false :=
  pySplitAux_sound l [] (by simp)

lemma pyStrip_ne_nil (l : List Char) (h : ∃ c ∈ l, pyIsSpace c = false) :
    pyStrip l ≠ [] := by
  obtain ⟨c, hc, hcs⟩ := h
  rw [pyStrip]
  intro hnil
  rw [List.reverse_eq_nil_iff, List.dropWhile_eq_nil_iff] at hnil
  have hc2 : c ∈ l.dropWhile pyIsSpace := by
    rcases List.mem_append.mp
        (by rw [List.takeWhile_append_dropWhile]; exact hc :
          c ∈ l.takeWhile pyIsSpace ++ l.dropWhile pyIsSpace) with h2 | h2
    · have := List.mem_takeWhile_imp h2
      rw [hcs] at this
      cases this
    · exact h2
  have := hnil c (List.mem_reverse.mpr hc2)
  rw [hcs] at this
  cases this

lemma wordSplitAux_ne_nil (ml : Int) :
    ∀ (ws : List (List Char)) (cur : List Char),
      (∀ w ∈ ws, w ≠ [] ∧ ∀ c ∈ w, pyIsSpace c = false) →
      (cur = [] ∨ ∃ c ∈ cur, pyIsSpace c = false) →
      ∀ p ∈ wordSplitAux ml cur ws, p ≠ []
  | [], cur, _, hcur, p, hp => by
    simp only [wordSplitAux] at hp
    split_ifs at hp with h
    · cases hp
    · simp only [List.mem_singleton] at hp
      subst hp
      rcases hcur with h2 | h2
      · exact absurd h2 h
      · exact pyStrip_ne_nil cur h2
  | w :: ws, cur, hws, hcur, p, hp => by
    simp only [wordSplitAux] at hp
    have hw := hws w (List.mem_cons_self w ws)
    have hws2 : ∀ w2 ∈ ws, w2 ≠ [] ∧ ∀ c ∈ w2, pyIsSpace c = false :=
      fun w2 hw2 => hws w2 (List.mem_cons_of_mem w hw2)
    obtain ⟨cw, hcw⟩ := List.exists_mem_of_ne_nil w hw.1
    split_ifs at hp with h h2
    · rcases List.mem_cons.mp hp with h2 | h2
      · subst h2
        rcases hcur with h3 | h3
        · exact absurd h3 h.2
        · exact pyStrip_ne_nil cur h3
      · exact wordSplitAux_ne_nil ml ws w hws2
          (Or.inr ⟨cw, hcw, hw.2 cw hcw⟩) p h2
    · refine wordSplitAux_ne_nil ml ws _ hws2 ?_ p hp
      right
      exact ⟨cw, by simp [hcw], hw.2 cw hcw⟩
    · refine wordSplitAux_ne_nil ml ws _ hws2 ?_ p hp
      right
      exact ⟨cw, by simp [hcw], hw.2 cw hcw⟩

lemma intlParts_ne_nil (ml : Int) (c : Token) (hml : 1 ≤ ml) :
    ∀ p ∈ intlParts ml c, p ≠ [] := by
  intro p hp
  rw [intlParts] at hp
  split_ifs at hp with h
  · exact cjkSplitAux_ne_nil ml hml _ _ p hp
  · exact wordSplitAux_ne_nil ml _ [] (pySplit_sound _) (Or.inl rfl) p hp

lemma intlTotal_pos (ml lines : Int) (c : Token) (hml : 1 ≤ ml)
    (hne : intlGroups ml lines c ≠ []) : 0 < intlTotal ml lines c := by
  rw [intlTotal]
  rw [intlGroups] at hne ⊢
  by_cases hneg : lines < 0
  · rw [if_pos hneg] at hne
    exact absurd rfl hne
  · rw [if_neg hneg] at hne ⊢
    rcases hparts : intlParts ml c with _ | ⟨x, xs⟩
    · rw [hparts, groupsOf_nil] at hne
      exact absurd rfl hne
    · rw [groupsOf_cons]
      have hx : x ≠ [] :=
        intlParts_ne_nil ml c hml x (by rw [hparts]; exact List.mem_cons_self x xs)
      have hxl : 0 < x.length := List.length_pos.mpr hx
      simp only [List.map_cons, List.sum_cons, groupChars, List.length_cons]
      omega

lemma intlBuild_duration_ge (L : Nat) (dur : ℚ) (total n : Nat)
    (htot : 0 < total) :
    ∀ (gs : List (List (List Char))) (t : ℚ) (s : Segment),
      s ∈ intlBuild L dur total n t gs → 1/2 ≤ s.end_ts - s.start_ts
  | [], t, s, hs => by rw [intlBuild] at hs; cases hs
  | g :: gs, t, s, hs => by
    rw [intlBuild] at hs
    rcases List.mem_cons.mp hs with h | h
    · subst h
      simp only [if_pos htot, pyMax_eq_max]
      have := le_max_right ((groupChars g : ℚ) / (total : ℚ) * dur) (1/2)
      linarith
    · exact intlBuild_duration_ge L dur total n htot gs _ s h

/-- C4 amended: before the overlap-correction post-pass, every segment the
international segmenter produces from a token (with `max_length ≥ 1` and
`lines ≥ 1`) satisfies `start_ts < end_ts` — each chunk duration is floored
at 0.5s.  After the post-pass the invariant fails for both segmenters: the
clamp `end_ts = next start_ts - 0.05` can land at or before the segment's
own `start_ts` (see the counterexample). -/
theorem C4_intl_pre_overlap_positive (ml lines : Int) (c : Token)
    (hml : 1 ≤ ml) (_hlines : 1 ≤ lines) :
    ∀ s ∈ intlCaptionSegs ml lines c, s.start_ts < s.end_ts := by
  intro s hs
  have hne : intlGroups ml lines c ≠ [] := by
    intro hnil
    rw [intlCaptionSegs, hnil, intlBuild] at hs
    cases hs
  have htot := intlTotal_pos ml lines c hml hne
  have hge := intlBuild_duration_ge _ _ _ _ htot _ _ s hs
  linarith

/-- Witness for the amended C4 theorem: one CJK token, `max_length = 1`,
`lines = 1`. -/
theorem C4_witness :
    (1 : Int) ≤ 1 ∧
    ∀ s ∈ intlCaptionSegs 1 1 ⟨[Char.ofNat 0x4e00, Char.ofNat 0x4e01], 0, 1⟩,
      s.start_ts < s.end_ts :=
  ⟨le_refl 1,
    C4_intl_pre_overlap_positive 1 1 ⟨[Char.ofNat 0x4e00, Char.ofNat 0x4e01], 0, 1⟩
      (by norm_num) (by norm_num)⟩

/-! ## Claim C6 (amended): the advance condition and the line-length bound -/

lemma getD_replicate_nil (n j : Nat) :
    (List.replicate n ([] : List Char)).getD j [] = [] := by
  rcases Nat.lt_or_ge j n with h | h
  · simp [List.getD, List.getElem?_replicate, h]
  · rw [List.getD_eq_default _ _ (by simpa using h)]

lemma mem_appendWord (lines : Int) (texts : List (List Char)) (cl : Nat)
    (t line : List Char) (h : line ∈ appendWord lines texts cl t) :
    line ∈ texts ∨ line = texts.getD cl [] ++
      ((if texts.getD cl [] = [] then [] else [spaceChar]) ++ t) := by
  rw [appendWord] at h
  by_cases h1 : (cl : Int) < lines
  · rw [if_pos h1, appendAt] at h
    exact List.mem_or_eq_of_mem_set h
  · rw [if_neg h1] at h
    exact Or.inl h

lemma getD_appendWord_ne (lines : Int) (texts : List (List Char)) (cl j : Nat)
    (t : List Char) (hj : cl ≠ j) :
    (appendWord lines texts cl t).getD j [] = texts.getD j [] := by
  rw [appendWord]
  by_cases h1 : (cl : Int) < lines
  · rw [if_pos h1, appendAt]
    simp [List.getD, List.getElem?_set_ne hj]
  · rw [if_neg h1]

lemma flush_texts_bound (ml lines : Int) (t : List Char)
    (ht : (t.length : Int) ≤ ml) :
    (∀ line ∈ appendWord lines (List.replicate lines.toNat []) 0 t,
      (line.length : Int) ≤ ml + 1) ∧
    ∀ j, 0 < j →
      (appendWord lines (List.replicate lines.toNat []) 0 t).getD j [] = [] := by
  constructor
  · intro line hline
    rcases mem_appendWord _ _ _ _ _ hline with h | h
    · have := List.eq_of_mem_replicate h
      subst this
      simp only [List.length_nil, Nat.cast_zero]
      have := Int.natCast_nonneg t.length
      omega
    · rw [getD_replicate_nil] at h
      simp only [if_pos rfl, List.nil_append] at h
      subst h
      omega
  · intro j hj
    rw [getD_appendWord_ne _ _ _ _ _ (by omega), getD_replicate_nil]

lemma englishStep_line_bound (catP : Char → Bool) (ml lines : Int)
    (st : EState) (c : Token)
    (hc : (c.text.length : Int) ≤ ml)
    (hp : is_punctuation catP c.text = false)
    (h1 : ∀ line ∈ st.texts, (line.length : Int) ≤ ml + 1)
    (h2 : ∀ j, st.current_line < j → st.texts.getD j [] = [])
    (h3 : ∀ s ∈ st.segments, ∀ line ∈ s.text, (line.length : Int) ≤ ml + 1) :
    (∀ line ∈ (englishStep catP ml lines st c).texts,
      (line.length : Int) ≤ ml + 1) ∧
    (∀ j, (englishStep catP ml lines st c).current_line < j →
      (englishStep catP ml lines st c).texts.getD j [] = []) ∧
    ∀ s ∈ (englishStep catP ml lines st c).segments, ∀ line ∈ s.text,
      (line.length : Int) ≤ ml + 1 := by
  simp only [englishStep, hp, Bool.false_eq_true, if_false, advanceCursor]
  by_cases hadv : (st.current_line : Int) < lines ∧
      ml < ((st.texts.getD st.current_line []).length + c.text.length : Int)
  · rw [if_pos hadv]
    split_ifs with hf
    · obtain ⟨f1, f2⟩ := flush_texts_bound ml lines c.text hc
      refine ⟨f1, f2, ?_⟩
      intro s hs
      rcases List.mem_append.mp hs with h | h
      · exact h3 s h
      · simp only [List.mem_singleton] at h
        subst h
        exact h1
    · have hline : st.texts.getD (st.current_line + 1) [] = [] :=
        h2 (st.current_line + 1) (Nat.lt_succ_self _)
      dsimp only
      refine ⟨?_, ?_, h3⟩
      · intro line hline2
        rcases mem_appendWord _ _ _ _ _ hline2 with h | h
        · exact h1 line h
        · rw [hline] at h
          simp at h
          subst h
          omega
      · intro j hj
        rw [getD_appendWord_ne _ _ _ _ _ (by omega)]
        exact h2 j (by omega)
  · rw [if_neg hadv]
    split_ifs with hf
    · obtain ⟨f1, f2⟩ := flush_texts_bound ml lines c.text hc
      refine ⟨f1, f2, ?_⟩
      intro s hs
      rcases List.mem_append.mp hs with h | h
      · exact h3 s h
      · simp only [List.mem_singleton] at h
        subst h
        exact h1
    · have hcl : (st.current_line : Int) < lines := by omega
      have hlen : ((st.texts.getD st.current_line []).length + c.text.length : Int) ≤ ml := by
        rcases not_and_or.mp hadv with h | h
        · exact absurd hcl h
        · omega
      dsimp only
      refine ⟨?_, ?_, h3⟩
      · intro line hline2
        rcases mem_appendWord _ _ _ _ _ hline2 with h | h
        · exact h1 line h
        · by_cases hemp : st.texts.getD st.current_line [] = []
          · rw [hemp] at h
            simp at h
            subst h
            rw [hemp] at hlen
            simp only [List.length_nil, Nat.cast_zero, zero_add] at hlen
            omega
          · rw [if_neg hemp] at h
            subst h
            simp only [List.length_append, List.length_cons, List.length_nil]
            push_cast
            push_cast at hlen
            omega
      · intro j hj
        rw [getD_appendWord_ne _ _ _ _ _ (by omega)]
        exact h2 j hj

lemma english_fold_line_bound (catP : Char → Bool) (ml lines : Int) :
    ∀ (caps : List Token) (st : EState),
      (∀ c ∈ caps, (c.text.length : Int) ≤ ml ∧
        is_punctuation catP c.text = false) →
      (∀ line ∈ st.texts, (line.length : Int) ≤ ml + 1) →
      (∀ j, st.current_line < j → st.texts.getD j [] = []) →
      (∀ s ∈ st.segments, ∀ line ∈ s.text, (line.length : Int) ≤ ml + 1) →
      (∀ line ∈ (caps.foldl (englishStep catP ml lines) st).texts,
        (line.length : Int) ≤ ml + 1) ∧
      ∀ s ∈ (caps.foldl (englishStep catP ml lines) st).segments,
        ∀ line ∈ s.text, (line.length : Int) ≤ ml + 1
  | [], st, _, g1, _, g3 => ⟨g1, g3⟩
  | c :: cs, st, hcaps, g1, g2, g3 => by
    rw [List.foldl_cons]
    have hc := hcaps c (List.mem_cons_self c cs)
    obtain ⟨k1, k2, k3⟩ := englishStep_line_bound catP ml lines st c hc.1 hc.2 g1 g2 g3
    exact english_fold_line_bound catP ml lines cs _
      (fun c2 hc2 => hcaps c2 (List.mem_cons_of_mem c hc2)) k1 k2 k3

lemma englishRaw_line_bound (catP : Char → Bool) (captions : List Token)
    (ml lines : Int)
    (hcaps : ∀ c ∈ captions, (c.text.length : Int) ≤ ml ∧
      is_punctuation catP c.text = false) :
    ∀ s ∈ englishRaw catP captions ml lines, ∀ line ∈ s.text,
      (line.length : Int) ≤ ml + 1 := by
  cases captions with
  | nil => simp [englishRaw]
  | cons c0 cs =>
    have ha := (hcaps c0 (List.mem_cons_self c0 cs)).1
    have hb := Int.natCast_nonneg c0.text.length
    simp only [englishRaw]
    obtain ⟨g1, g3⟩ := english_fold_line_bound catP ml lines (c0 :: cs)
      ⟨[], List.replicate lines.toNat [], 0, c0.start_ts, c0.end_ts⟩ hcaps
      (by intro line hline
          have := List.eq_of_mem_replicate hline
          subst this
          simp only [List.length_nil, Nat.cast_zero]
          omega)
      (by intro j _; exact getD_replicate_nil _ _)
      (by intro s hs; simp at hs)
    split_ifs with hany
    · intro s hs
      rcases List.mem_append.mp hs with h | h
      · exact g3 s h
      · simp only [List.mem_singleton] at h
        subst h
        exact g1
    · exact g3

/-- C6 amended: for every non-punctuation token, the line cursor advances
exactly when appending the token WITHOUT the separating space would pass
`max_length` (`len(line + text) > max_length`: the separating space that
the append then inserts is not counted); consequently, when every token's
length is at most `max_length` and no token is punctuation, each output
line has length at most `max_length + 1` (the claimed `max_length` bound
fails, see the counterexample). -/
theorem C6_advance_and_bound :
    (∀ (ml lines : Int) (texts : List (List Char)) (cl : Nat) (t : List Char),
      advanceCursor ml lines texts cl t = cl + 1 ↔
        ((cl : Int) < lines ∧ ml < ((texts.getD cl []).length + t.length : Int))) ∧
    ∀ (catP : Char → Bool) (captions : List Token) (ml lines : Int),
      (∀ c ∈ captions, (c.text.length : Int) ≤ ml ∧
        is_punctuation catP c.text = false) →
      ∀ s ∈ create_subtitle_segments_english catP captions ml lines,
        ∀ line ∈ s.text, (line.length : Int) ≤ ml + 1 := by
  constructor
  · intro ml lines texts cl t
    rw [advanceCursor]
    split_ifs with h
    · exact iff_of_true rfl h
    · constructor
      · intro heq
        exact absurd heq (by omega)
      · intro hcon
        exact absurd hcon h
  · intro catP captions ml lines hcaps s hs line hline
    rw [create_subtitle_segments_english] at hs
    have hmem := fixOverlaps_text_mem _ _ hs
    obtain ⟨s0, hs0, hts⟩ := List.mem_map.mp hmem
    rw [← hts] at hline
    exact englishRaw_line_bound catP captions ml lines hcaps s0 hs0 line hline

/-- Witness for the amended C6 theorem at a concrete token list. -/
theorem C6_witness :
    (advanceCursor 1 1 [[Char.ofNat 97]] 0 [Char.ofNat 98] = 0 + 1 ↔
      (((0 : Nat) : Int) < 1 ∧
        (1 : Int) < (([[Char.ofNat 97]].getD 0 []).length + [Char.ofNat 98].length : Int))) ∧
    (∀ c ∈ [(⟨[Char.ofNat 97], 0, 1⟩ : Token)],
      (c.text.length : Int) ≤ 3 ∧ is_punctuation (fun _ => false) c.text = false) ∧
    ∀ s ∈ create_subtitle_segments_english (fun _ => false)
        [⟨[Char.ofNat 97], 0, 1⟩] 3 1,
      ∀ line ∈ s.text, (line.length : Int) ≤ 3 + 1 :=
  ⟨C6_advance_and_bound.1 1 1 [[Char.ofNat 97]] 0 [Char.ofNat 98],
   by decide,
   C6_advance_and_bound.2 (fun _ => false) [⟨[Char.ofNat 97], 0, 1⟩] 3 1 (by decide)⟩

/-! ## Claim C10: per-token text preservation -/

lemma intlBuild_map_text (L : Nat) (dur : ℚ) (total n : Nat) :
    ∀ (gs : List (List (List Char))) (t : ℚ),
      (intlBuild L dur total n t gs).map Segment.text =
        gs.map (fun g => g ++ List.replicate (L - g.length) [])
  | [], _ => rfl
  | g :: gs, t => by
    simp [intlBuild, intlBuild_map_text L dur total n gs]

lemma groupsOfAux_flatten (n : Nat) :
    ∀ (fuel : Nat) (l : List α), l.length ≤ fuel →
      (groupsOfAux n fuel l).flatten = l
  | fuel, [], _ => by rw [groupsOfAux_nil]; rfl
  | 0, x :: xs, h => by simp at h
  | fuel + 1, x :: xs, h => by
    rw [groupsOfAux]
    simp only [List.flatten_cons]
    have hd : (xs.drop n).length ≤ fuel := by
      simp only [List.length_drop]
      have hx : xs.length ≤ fuel := by simpa using h
      omega
    rw [groupsOfAux_flatten n fuel (xs.drop n) hd]
    simp [List.take_append_drop]

lemma groupsOf_flatten (n : Nat) (l : List α) : (groupsOf n l).flatten = l :=
  groupsOfAux_flatten n l.length l le_rfl

lemma flatten_filter_ne_nil :
    ∀ l : List (List Char), (l.filter (fun x => x ≠ [])).flatten = l.flatten
  | [] => rfl
  | x :: xs => by
    have ih := flatten_filter_ne_nil xs
    by_cases hx : x = []
    · subst hx
      simpa [List.filter_cons] using ih
    · simpa [List.filter_cons, hx] using ih

lemma cjkSplitAux_flatten (ml : Int) :
    ∀ (l cur : List Char), (cjkSplitAux ml cur l).flatten = cur ++ l
  | [], cur => by
    simp only [cjkSplitAux]
    split_ifs with h
    · subst h; rfl
    · simp
  | ch :: rest, cur => by
    simp only [cjkSplitAux]
    split_ifs with h
    · simp [cjkSplitAux_flatten ml rest [ch]]
    · simp [cjkSplitAux_flatten ml rest (cur ++ [ch])]

lemma sepJoin_ne_nil :
    ∀ ws : List (List Char), ws ≠ [] → (∀ w ∈ ws, w ≠ []) → sepJoin ws ≠ []
  | [], h, _ => absurd rfl h
  | [w], _, hs => by simpa [sepJoin] using hs w (by simp)
  | w :: w2 :: ws, _, hs => by
    have hw := hs w (by simp)
    simp [sepJoin, hw]

lemma head_sepJoin_sound :
    ∀ ws : List (List Char),
      (∀ w ∈ ws, w ≠ [] ∧ ∀ c ∈ w, pyIsSpace c = false) →
      ∀ c ∈ (sepJoin ws).head?, pyIsSpace c = false
  | [], _, c, hc => by simp [sepJoin] at hc
  | [w], hs, c, hc => (hs w (by simp)).2 c (List.mem_of_mem_head? hc)
  | w :: w2 :: ws, hs, c, hc => by
    have hw := hs w (by simp)
    rw [sepJoin] at hc
    rcases hwc : w with _ | ⟨a, as⟩
    · exact absurd hwc hw.1
    · rw [hwc] at hc
      simp only [List.cons_append, List.head?_cons, Option.mem_def,
        Option.some.injEq] at hc
      rw [← hc]
      exact hw.2 a (hwc ▸ List.mem_cons_self a as)

lemma getLast_sepJoin_sound :
    ∀ ws : List (List Char),
      (∀ w ∈ ws, w ≠ [] ∧ ∀ c ∈ w, pyIsSpace c = false) →
      ∀ c ∈ (sepJoin ws).getLast?, pyIsSpace c = false
  | [], _, c, hc => by simp [sepJoin] at hc
  | [w], hs, c, hc => (hs w (by simp)).2 c (List.mem_of_mem_getLast? hc)
  | w :: w2 :: ws, hs, c, hc => by
    have hs2 : ∀ v ∈ w2 :: ws, v ≠ [] ∧ ∀ c2 ∈ v, pyIsSpace c2 = false :=
      fun v hv => hs v (List.mem_cons_of_mem w hv)
    have hne : sepJoin (w2 :: ws) ≠ [] :=
      sepJoin_ne_nil (w2 :: ws) (by simp) (fun v hv => (hs2 v hv).1)
    rw [sepJoin] at hc
    rw [List.append_assoc, List.getLast?_append_of_ne_nil _ (by simp [hne]),
      List.getLast?_append_of_ne_nil _ hne] at hc
    exact getLast_sepJoin_sound (w2 :: ws) hs2 c hc

lemma pyStrip_eq_self (l : List Char)
    (hhead : ∀ c ∈ l.head?, pyIsSpace c = false)
    (hlast : ∀ c ∈ l.getLast?, pyIsSpace c = false) :
    pyStrip l = l := by
  have h1 : l.dropWhile pyIsSpace = l := by
    cases l with
    | nil => rfl
    | cons c cs =>
      rw [List.dropWhile_cons, if_neg (by simp [hhead c (by simp)])]
  rw [pyStrip, h1]
  have h2 : l.reverse.dropWhile pyIsSpace = l.reverse := by
    cases hr : l.reverse with
    | nil => rfl
    | cons c cs =>
      rw [List.dropWhile_cons, if_neg ?_]
      have hcl : c ∈ l.getLast? := by
        rw [← List.head?_reverse, hr]
        rfl
      simp [hlast c hcl]
  rw [h2, List.reverse_reverse]

lemma pyStrip_sepJoin (ws : List (List Char))
    (hs : ∀ w ∈ ws, w ≠ [] ∧ ∀ c ∈ w, pyIsSpace c = false) :
    pyStrip (sepJoin ws) = sepJoin ws :=
  pyStrip_eq_self _ (head_sepJoin_sound ws hs) (getLast_sepJoin_sound ws hs)

lemma sepJoin_append_single :
    ∀ (acc : List (List Char)) (w : List Char),
      sepJoin (acc ++ [w]) =
        (if acc = [] then [] else sepJoin acc ++ [spaceChar]) ++ w
  | [], w => by simp [sepJoin]
  | [a], w => by simp [sepJoin]
  | a :: b :: acc, w => by
    have ih := sepJoin_append_single (b :: acc) w
    simp only [List.cons_append] at ih ⊢
    simp only [sepJoin]
    rw [ih, if_neg (by simp : ¬(b :: acc = [])), if_neg (by simp : ¬(a :: b :: acc = []))]
    simp [List.append_assoc]

lemma sepJoin_append :
    ∀ (xs ys : List (List Char)), xs ≠ [] → ys ≠ [] →
      sepJoin (xs ++ ys) = sepJoin xs ++ [spaceChar] ++ sepJoin ys
  | [], _, hx, _ => absurd rfl hx
  | [x], ys, _, hy => by
    cases ys with
    | nil => exact absurd rfl hy
    | cons y ys => simp [sepJoin]
  | x :: x2 :: xs, ys, _, hy => by
    have ih := sepJoin_append (x2 :: xs) ys (by simp) hy
    simp only [List.cons_append] at ih ⊢
    simp only [sepJoin]
    rw [ih]
    simp [List.append_assoc]

lemma wordSplitAux_ne_nil_list (ml : Int) :
    ∀ (ws : List (List Char)) (cur : List Char), cur ≠ [] →
      wordSplitAux ml cur ws ≠ []
  | [], cur, hcur => by
    simp only [wordSplitAux]
    rw [if_neg hcur]
    simp
  | w :: ws, cur, hcur => by
    simp only [wordSplitAux]
    by_cases h : ml < (cur.length + 1 + w.length : Int) ∧ cur ≠ []
    · rw [if_pos h]
      simp
    · rw [if_neg h, if_neg hcur]
      refine wordSplitAux_ne_nil_list ml ws _ ?_
      simp

lemma wordSplitAux_sepJoin (ml : Int) :
    ∀ (ws acc : List (List Char)),
      (∀ w ∈ acc ++ ws, w ≠ [] ∧ ∀ c ∈ w, pyIsSpace c = false) →
      sepJoin (wordSplitAux ml (sepJoin acc) ws) = sepJoin (acc ++ ws)
  | [], [], _ => by simp [wordSplitAux, sepJoin]
  | [], a :: as, hs => by
    have hs2 : ∀ w ∈ a :: as, w ≠ [] ∧ ∀ c ∈ w, pyIsSpace c = false := by
      intro w hw
      exact hs w (by simpa using hw)
    have hne : sepJoin (a :: as) ≠ [] :=
      sepJoin_ne_nil _ (by simp) (fun w hw => (hs2 w hw).1)
    simp only [wordSplitAux, List.append_nil]
    rw [if_neg hne]
    show sepJoin [pyStrip (sepJoin (a :: as))] = _
    rw [show ∀ v : List Char, sepJoin [v] = v from fun v => rfl]
    exact pyStrip_sepJoin _ hs2
  | w :: ws, acc, hs => by
    have hw : w ≠ [] ∧ ∀ c ∈ w, pyIsSpace c = false := hs w (by simp)
    have hsacc : ∀ v ∈ acc, v ≠ [] ∧ ∀ c ∈ v, pyIsSpace c = false := by
      intro v hv
      exact hs v (by simp [hv])
    have hsws : ∀ v ∈ [w] ++ ws, v ≠ [] ∧ ∀ c ∈ v, pyIsSpace c = false := by
      intro v hv
      refine hs v ?_
      simp only [List.cons_append, List.nil_append] at hv
      simp [hv]
    simp only [wordSplitAux]
    by_cases h : ml < ((sepJoin acc).length + 1 + w.length : Int) ∧ sepJoin acc ≠ []
    · rw [if_pos h]
      have hacc_ne : acc ≠ [] := by
        intro hnil
        subst hnil
        exact h.2 rfl
      have hrec_ne : wordSplitAux ml w ws ≠ [] := wordSplitAux_ne_nil_list ml ws w hw.1
      have ihw : sepJoin (wordSplitAux ml (sepJoin [w]) ws) = sepJoin ([w] ++ ws) :=
        wordSplitAux_sepJoin ml ws [w] hsws
      rw [show sepJoin [w] = w from rfl] at ihw
      rcases hr : wordSplitAux ml w ws with _ | ⟨r, rs⟩
      · exact absurd hr hrec_ne
      · rw [hr] at ihw
        rw [show sepJoin (pyStrip (sepJoin acc) :: r :: rs) =
            pyStrip (sepJoin acc) ++ [spaceChar] ++ sepJoin (r :: rs) from rfl]
        rw [pyStrip_sepJoin acc hsacc, ihw,
          sepJoin_append acc (w :: ws) hacc_ne (by simp)]
        rfl
    · rw [if_neg h]
      by_cases h2 : sepJoin acc = []
      · have hacc : acc = [] := by
          by_contra hne2
          exact sepJoin_ne_nil acc hne2 (fun v hv => (hsacc v hv).1) h2
        rw [if_pos h2]
        subst hacc
        simp only [List.nil_append]
        have ih := wordSplitAux_sepJoin ml ws [w] hsws
        rw [show sepJoin [w] = w from rfl] at ih
        exact ih
      · have hacc_ne : acc ≠ [] := fun hnil => h2 (by rw [hnil]; rfl)
        rw [if_neg h2]
        have hcur : (sepJoin acc ++ [spaceChar]) ++ w = sepJoin (acc ++ [w]) := by
          rw [sepJoin_append_single acc w, if_neg hacc_ne]
        rw [hcur]
        have ih := wordSplitAux_sepJoin ml ws (acc ++ [w]) (by
          intro v hv
          refine hs v ?_
          simp only [List.mem_append, List.mem_singleton, List.mem_cons] at hv ⊢
          tauto)
        rw [ih, List.append_assoc]
        rfl

/-- C10: `create_subtitle_segments_international` preserves text content
per token.  If the stripped token text contains a CJK ideograph
(`U+4E00..U+9FFF`), concatenating all non-empty output lines produced from
that token, in order, yields exactly the stripped token text; otherwise,
joining all non-empty output lines produced from that token with single
spaces yields exactly the token's words (`text.split()` of the stripped
text) joined by single spaces. -/
theorem C10_text_preservation (ml lines : Int) (c : Token)
    (hlines : 1 ≤ lines) :
    ((pyStrip c.text).any isCJKChar = true →
      ((((intlCaptionSegs ml lines c).map Segment.text).flatten.filter
          (fun line => line ≠ [])).flatten = pyStrip c.text)) ∧
    ((pyStrip c.text).any isCJKChar = false →
      sepJoin (((intlCaptionSegs ml lines c).map Segment.text).flatten.filter
          (fun line => line ≠ []))
        = sepJoin (pySplit (pyStrip c.text))) := by
  have hmap : ((intlGroups ml lines c).map
      (fun g => g ++ List.replicate (lines.toNat - g.length) [])).map
        (List.filter (fun line => line ≠ []))
      = (intlGroups ml lines c).map (List.filter (fun line => line ≠ [])) := by
    rw [List.map_map]
    refine List.map_congr_left ?_
    intro g _
    simp only [Function.comp]
    rw [List.filter_append, List.filter_replicate]
    simp
  have hkey : ((intlCaptionSegs ml lines c).map Segment.text).flatten.filter
      (fun line => line ≠ []) = (intlParts ml c).filter (fun line => line ≠ []) := by
    rw [intlCaptionSegs, intlBuild_map_text]
    rw [List.filter_flatten, hmap, ← List.filter_flatten]
    rw [intlGroups, if_neg (by omega)]
    rw [groupsOf_flatten]
  constructor
  · intro hcjk
    rw [hkey, flatten_filter_ne_nil]
    simp only [intlParts, hcjk, if_true]
    rw [cjkSplitAux_flatten]
    simp
  · intro hcjk
    rw [hkey]
    simp only [intlParts, hcjk, Bool.false_eq_true, if_false]
    have hsound := pySplit_sound (pyStrip c.text)
    have hall : ∀ p ∈ wordSplitAux ml [] (pySplit (pyStrip c.text)), p ≠ [] :=
      wordSplitAux_ne_nil ml _ [] hsound (Or.inl rfl)
    rw [List.filter_eq_self.mpr (by intro a ha; simpa using hall a ha)]
    have hjoin := wordSplitAux_sepJoin ml (pySplit (pyStrip c.text)) []
      (by simpa using hsound)
    simpa using hjoin

/-- Witness for C10 at a concrete CJK token. -/
theorem C10_witness :
    (1 : Int) ≤ 1 ∧
    (((pyStrip (⟨[Char.ofNat 0x4e00], 0, 1⟩ : Token).text).any isCJKChar = true →
      ((((intlCaptionSegs 2 1 ⟨[Char.ofNat 0x4e00], 0, 1⟩).map Segment.text).flatten.filter
          (fun line => line ≠ [])).flatten
        = pyStrip (⟨[Char.ofNat 0x4e00], 0, 1⟩ : Token).text)) ∧
     ((pyStrip (⟨[Char.ofNat 0x4e00], 0, 1⟩ : Token).text).any isCJKChar = false →
      sepJoin (((intlCaptionSegs 2 1 ⟨[Char.ofNat 0x4e00], 0, 1⟩).map Segment.text).flatten.filter
          (fun line => line ≠ []))
        = sepJoin (pySplit (pyStrip (⟨[Char.ofNat 0x4e00], 0, 1⟩ : Token).text)))) :=
  ⟨le_refl 1, C10_text_preservation 2 1 ⟨[Char.ofNat 0x4e00], 0, 1⟩ (by norm_num)⟩
